import Mathlib

/-!
Verification of the squashfs regular-file index cache and page assembly
(`kernel/fs/squashfs/file.c`).

The development shallow-embeds the C code into Lean:

* machine integers become `Nat` (all quantities involved are non-negative in
  the C code: metadata cursors, cumulative data positions, block counts,
  compressed sizes); where the C uses a signed `int` that can go negative
  (the byte countdown in the page fill loop) we use `Int`;
* the opaque metadata position pair `<start_block, offset>` threaded through
  `squashfs_read_metadata` is modelled as a single abstract cursor
  (`Nat`): the number of 32-bit block-list entries that precede it.  The
  reader advances the cursor by the number of entries read; the on-disk
  metadata content is a function from cursors to raw 32-bit entry values;
* fallible calls return `Option` (`none` = the C error return);
* the in-place mutation of the slot table is explicit state passing on
  `MsblkState`;
* loops are embedded with a structural fuel argument so that every
  definition computes by kernel reduction; callers always pass enough fuel
  (each loop iteration consumes at least one unit of its bound), and the
  fuel-exhaustion branches are written to coincide with the loop-exit
  behaviour, so they are unreachable from the entry points used here.
-/

/-! ### Constants

`SQUASHFS_META_SLOTS`, `SQUASHFS_META_ENTRIES`, `SQUASHFS_META_INDEXES`,
`SQUASHFS_CACHED_BLKS` and the `SQUASHFS_COMPRESSED_SIZE_BLOCK` macro live in
`include/linux/squashfs_fs.h`, which is not part of the sources here; only
`file.c` is.  Their values are modelled from the spec and from `file.c`'s own
header comment ("caching up to eight 224 GiB files (128 KiB blocks) ...
1.75 TiB files using all 8 slots ... by default uses 16 KiB"), which pins the
standard values below. -/

/-- Modelled from the spec: number of slots of the index cache
(missing header `squashfs_fs.h`); the spec and the `file.c` header comment
say eight slots. -/
def SQUASHFS_META_SLOTS : Nat := 8

/-- Modelled from the spec: per-slot entry capacity
(missing header `squashfs_fs.h`). -/
def SQUASHFS_META_ENTRIES : Nat := 127

/-- Modelled from the spec: block-list entries spanned by one cache index
step, `SQUASHFS_METADATA_SIZE / sizeof(unsigned int) = 8192 / 4`
(missing header `squashfs_fs.h`). -/
def SQUASHFS_META_INDEXES : Nat := 2048

/-- Modelled from the spec: size of the metadata block cache, the cap on the
skip factor (missing header `squashfs_fs.h`). -/
def SQUASHFS_CACHED_BLKS : Nat := 8

/-- Value of `PAGE_CACHE_SIZE` on the reference configuration (4 KiB pages). -/
def PAGE_CACHE_SIZE : Nat := 4096

/-- Value of `PAGE_CACHE_SHIFT` for 4 KiB pages. -/
def PAGE_CACHE_SHIFT : Nat := 12

/-- Modelled from the spec: the `SQUASHFS_COMPRESSED_SIZE_BLOCK` macro
(missing header `squashfs_fs.h`): clear the compressed-flag bit (bit 24) of a
raw 32-bit block-list entry, keeping the stored size. -/
def SQUASHFS_COMPRESSED_SIZE_BLOCK (b : Nat) : Nat := b &&& 0xFEFFFFFF

/-! ### The metadata reader and block-list sums -/

/-- Environment of a mounted filesystem, as far as the block-list walk is
concerned: the raw 32-bit block-list entries laid out in compressed metadata
(indexed by abstract cursor, byte order already folded away by
`le32_to_cpu`), which reads succeed, the inode-table start used to
relativize cursors stored in cache entries, and the block-size log. -/
structure MetaEnv where
  meta : Nat → Nat
  metaOk : Nat → Nat → Bool
  inodeTableStart : Nat
  blockLog : Nat

/-- Per-file data from the inode (`squashfs_inode_info`): inode number,
file size, block-list start cursor, first data-block position. -/
structure SqInode where
  iIno : Nat
  iSize : Nat
  blockListStart : Nat
  startBlock : Nat

/-- Sum of the compressed sizes of `n` consecutive block-list entries
starting at cursor `pos` (the summation loop of `read_block_indexes`). -/
def blockSum (meta : Nat → Nat) (pos : Nat) : Nat → Nat
  | 0 => 0
  | n + 1 => blockSum meta pos n + SQUASHFS_COMPRESSED_SIZE_BLOCK (meta (pos + n))

/-- Function `read_block_indexes`: read the next `n` block-list entries from cursor
`pos` (one `squashfs_read_metadata` call of `n << 2` bytes), returning the
sum of their compressed sizes and the advanced cursor, or `none` on a
metadata read error (the C `-1` return). -/
def read_block_indexes (env : MetaEnv) (n pos : Nat) : Option (Nat × Nat) :=
  if env.metaOk pos n then some (blockSum env.meta pos n, pos + n) else none

/-! ### Skip factor -/

/-- Function `calculate_skip`: map a file's total block count to the cache skip
factor.  For `blocks = 0` the C computes `(-1) / 262144 = 0` (truncation
toward zero), which coincides with `Nat` truncated subtraction. -/
def calculate_skip (blocks : Nat) : Nat :=
  min (SQUASHFS_CACHED_BLKS - 1)
    ((blocks - 1) / ((SQUASHFS_META_ENTRIES + 1) * SQUASHFS_META_INDEXES) + 1)

/-! ### The tail walk of `read_blocklist`

The `while (index) { ... }` loop of `read_blocklist` reads the remaining
block-list entries in batches of at most `PAGE_CACHE_SIZE >> 2` 32-bit
fields. -/

/-- The batched tail loop of `read_blocklist`: walk `remaining` block-list
entries from cursor `pos`, accumulating compressed sizes into `data`.
Returns the advanced cursor and accumulated data position, or `none` on a
metadata read error. -/
def rbl_tail (env : MetaEnv) : Nat → Nat → Nat → Nat → Option (Nat × Nat)
  | _, 0, pos, data => some (pos, data)
  | 0, _ + 1, _, _ => none
  | fuel + 1, remaining + 1, pos, data =>
      match read_block_indexes env (min (remaining + 1) (PAGE_CACHE_SIZE / 4)) pos with
      | none => none
      | some (res, pos2) =>
          rbl_tail env fuel
            (remaining + 1 - min (remaining + 1) (PAGE_CACHE_SIZE / 4)) pos2 (data + res)

/-- Success predicate of the batched tail walk: `true` iff every batched
metadata read performed by `rbl_tail` succeeds (same batch structure, same
fuel discipline). -/
def tail_ok (env : MetaEnv) : Nat → Nat → Nat → Bool
  | _, 0, _ => true
  | 0, _ + 1, _ => false
  | fuel + 1, remaining + 1, pos =>
      env.metaOk pos (min (remaining + 1) (PAGE_CACHE_SIZE / 4)) &&
        tail_ok env fuel (remaining + 1 - min (remaining + 1) (PAGE_CACHE_SIZE / 4))
          (pos + min (remaining + 1) (PAGE_CACHE_SIZE / 4))

/-- The tail phase of `read_blocklist`, starting from the resume point
returned by `fill_meta_index`: `res` raw indices already covered, cursor
`pos`, cumulative data position `data`, target raw index `index`.  Walks
`index - res` further entries, then reads exactly one more entry whose raw
value is the returned block size.  Returns `(cumulative data position,
bsize)` or `none` on any metadata read error (the C `0` return of
`read_blocklist`). -/
def read_blocklist_tail (env : MetaEnv) (res pos data index : Nat) : Option (Nat × Nat) :=
  match rbl_tail env index (index - res) pos data with
  | none => none
  | some (pos2, data2) =>
      if env.metaOk pos2 1 then some (data2, env.meta pos2) else none

/-! ### Index-cache slot table -/

/-- One cache entry (`struct meta_entry`): the block-list cursor to resume
from at this cache index, stored relative to the inode-table start
(`cur_index_block - msblk->inode_table_start`; the C's separate
intra-metadata-block `offset` component is folded into the abstract
cursor), and the cumulative data position. -/
structure MetaEntryM where
  indexBlock : Nat
  dataBlock : Nat

/-- One cache slot (`struct meta_index`): owning inode number (`0` = free),
starting cache index covered, skip factor, number of populated entries,
busy flag, and the entry array (modelled as a function; only positions
below `entries` are meaningful). -/
structure MetaIndexSlot where
  inodeNumber : Nat
  offset : Nat
  skip : Nat
  entries : Nat
  locked : Bool
  meta_entry : Nat → MetaEntryM

/-- The slot-table state in `squashfs_sb_info`: the lazily allocated slot
array (`none` before first use) and the round-robin cursor. -/
structure MsblkState where
  metaIndex : Option (Nat → MetaIndexSlot)
  nextMetaIndex : Nat

/-- Functional update of one slot of the table. -/
def setSlot (tbl : Nat → MetaIndexSlot) (i : Nat) (s : MetaIndexSlot) : Nat → MetaIndexSlot :=
  fun j => if j = i then s else tbl j

/-- A freshly `kmalloc`ed slot as initialised by `empty_meta_index` on first
use: the C initialises only `inode_number = 0` and `locked = 0`; the other
fields are uninitialised memory and are modelled by arbitrary defaults
(nothing reads them before the slot is claimed, since `locate_meta_index`
requires a matching nonzero inode number). -/
def freshSlot : MetaIndexSlot :=
  { inodeNumber := 0, offset := 0, skip := 0, entries := 0, locked := false,
    meta_entry := fun _ => ⟨0, 0⟩ }

/-- Read the slot table out of the state (total helper; the `none` case is
only ever used underneath a proof that the table is allocated). -/
def getTbl (st : MsblkState) : Nat → MetaIndexSlot :=
  match st.metaIndex with
  | some tbl => tbl
  | none => fun _ => freshSlot

/-- Function `locate_meta_index`: scan all slots for one owned by `ino` whose start
offset lies in `[off, index]` and that is not busy, keeping the one with
the largest start offset (the C loop raises its running `offset` variable
to each match's offset, so later candidates must be at least as far right).
On a hit the chosen slot is marked busy.  Returns the chosen slot index and
the updated state.  The scan loop is factored out as `locate_scan` (the
accumulator holds the current best hit and the running `offset`
variable). -/
def locate_scan (tbl : Nat → MetaIndexSlot) (ino index : Nat) (l : List Nat)
    (acc : Option Nat × Nat) : Option Nat × Nat :=
  l.foldl
    (fun acc i =>
      if (tbl i).inodeNumber = ino ∧ acc.2 ≤ (tbl i).offset ∧
          (tbl i).offset ≤ index ∧ (tbl i).locked = false
      then (some i, (tbl i).offset) else acc) acc

def locate_meta_index (st : MsblkState) (ino off index : Nat) : Option Nat × MsblkState :=
  match st.metaIndex with
  | none => (none, st)
  | some tbl =>
      let r := locate_scan tbl ino index (List.range SQUASHFS_META_SLOTS)
        ((none : Option Nat), off)
      match r.1 with
      | none => (none, st)
      | some i =>
          (some i, { st with metaIndex := some (setSlot tbl i { tbl i with locked := true }) })

/-- The round-robin probe of `empty_meta_index`: starting at cursor `next`,
probe up to `n` slots for the first that is not busy.  (The C indexes
`meta_index[next]` directly under the invariant `next < SQUASHFS_META_SLOTS`;
the modular reduction at each probe makes the model total.) -/
def scanFree (tbl : Nat → MetaIndexSlot) : Nat → Nat → Option Nat
  | 0, _ => none
  | n + 1, next =>
      if (tbl (next % SQUASHFS_META_SLOTS)).locked then
        scanFree tbl n ((next + 1) % SQUASHFS_META_SLOTS)
      else some (next % SQUASHFS_META_SLOTS)

/-- The cursor the round-robin probe starts from: the table-wide cursor,
or `0` right after the lazy first-use allocation of the table. -/
def emptyStart (st : MsblkState) : Nat :=
  match st.metaIndex with
  | some _ => st.nextMetaIndex
  | none => 0

/-- Function `empty_meta_index`: lazily allocate the slot table on first use
(`getTbl st` is the freshly initialised table in that case; the `kmalloc`
failure path is not modelled — allocation succeeds), then round-robin scan
from the table-wide cursor for the first non-busy slot; claim it for
`ino`/`off`/`skip` with zero entries, mark it busy, and advance the cursor
past it.  If all slots are busy the scan wraps all the way around (leaving
the cursor where it started) and the allocation fails. -/
def empty_meta_index (st : MsblkState) (ino off skip : Nat) : Option Nat × MsblkState :=
  match scanFree (getTbl st) SQUASHFS_META_SLOTS (emptyStart st) with
  | none => (none, { metaIndex := some (getTbl st), nextMetaIndex := emptyStart st })
  | some p =>
      (some p,
        { metaIndex := some (setSlot (getTbl st) p
            { inodeNumber := ino, offset := off, skip := skip, entries := 0,
              locked := true, meta_entry := ((getTbl st) p).meta_entry }),
          nextMetaIndex := (p + 1) % SQUASHFS_META_SLOTS })

/-- Store a slot's (possibly partially grown) contents back and clear its
busy flag (`release_meta_index`; the C mutates the slot in place during the
grow loop, so storing the accumulated local copy at release time is the
same sequential behaviour). -/
def storeSlot (st : MsblkState) (i : Nat) (s : MetaIndexSlot) : MsblkState :=
  { st with metaIndex := st.metaIndex.map (fun tbl => setSlot tbl i s) }

/-- Release a slot without modifying its contents (the `failed:` path of
`fill_meta_index` for a located slot with zero entries). -/
def releaseSlot (st : MsblkState) (i : Nat) : MsblkState :=
  { st with metaIndex :=
      st.metaIndex.map (fun tbl => setSlot tbl i { tbl i with locked := false }) }

/-! ### `fill_meta_index` -/

/-- The inner `while (blocks)` loop of the grow step of `fill_meta_index`:
read `blocks` block-list entries from cursor `pos` in chunks of at most
`PAGE_CACHE_SIZE >> 2`, accumulating compressed sizes into `data`
(`cur_data_block += res`).  `none` on a metadata read error. -/
def read_span (env : MetaEnv) : Nat → Nat → Nat → Nat → Option (Nat × Nat)
  | _, 0, pos, data => some (pos, data)
  | 0, _ + 1, _, _ => none
  | fuel + 1, blocks + 1, pos, data =>
      match read_block_indexes env (min (PAGE_CACHE_SIZE / 4) (blocks + 1)) pos with
      | none => none
      | some (res, pos2) =>
          read_span env fuel (blocks + 1 - min (PAGE_CACHE_SIZE / 4) (blocks + 1)) pos2
            (data + res)

/-- The grow loop of `fill_meta_index` (`for (i = meta->offset +
meta->entries; i <= index && i < meta->offset + SQUASHFS_META_ENTRIES;
i++)`): for each cache index `i` still to be covered, read
`skip * SQUASHFS_META_INDEXES` block-list entries and append the resulting
resume point and cumulative data position as entry `i - slot.offset`.
Returns the grown slot, the final cursor, data position and offset, and a
success flag (`false` = metadata read error, the `goto failed` path; the
entries appended before the failure are kept). -/
def grow_loop (env : MetaEnv) (index skip : Nat) :
    Nat → Nat → MetaIndexSlot → Nat → Nat → Nat → MetaIndexSlot × Nat × Nat × Nat × Bool
  | 0, _, slot, pos, data, offset => (slot, pos, data, offset, true)
  | fuel + 1, i, slot, pos, data, offset =>
      if i ≤ index ∧ i < slot.offset + SQUASHFS_META_ENTRIES then
        match read_span env (skip * SQUASHFS_META_INDEXES) (skip * SQUASHFS_META_INDEXES)
            pos data with
        | none => (slot, pos, data, offset, false)
        | some (pos2, data2) =>
            grow_loop env index skip fuel (i + 1)
              { slot with
                  meta_entry := fun k =>
                    if k = i - slot.offset then ⟨pos2 - env.inodeTableStart, data2⟩
                    else slot.meta_entry k,
                  entries := slot.entries + 1 }
              pos2 data2 (offset + 1)
      else (slot, pos, data, offset, true)

/-- Outcome of the locate/allocate phase of one iteration of the
`while (offset < index)` loop of `fill_meta_index`. -/
inductive FillStep where
  | fail (st : MsblkState)
  | done (st : MsblkState)
  | cont (i : Nat) (slot : MetaIndexSlot) (offset pos data : Nat) (st : MsblkState)

/-- The locate/allocate phase of one iteration of the `fill_meta_index`
loop: locate a slot in `[offset + 1, index]`; if none, allocate an empty
one (allocation failure ends the loop, `goto all_done`); a located slot
with zero entries is the `goto failed` path; otherwise adopt the located
slot's last entry within range as the new resume point. -/
def fill_locate (env : MetaEnv) (ino : SqInode) (skip index offset pos data : Nat)
    (st : MsblkState) : FillStep :=
  match locate_meta_index st ino.iIno (offset + 1) index with
  | (some i, st1) =>
      let slot := getTbl st1 i
      if slot.entries = 0 then .fail (releaseSlot st1 i)
      else
        let offset2 := if index < slot.offset + slot.entries then index
          else slot.offset + slot.entries - 1
        let e := slot.meta_entry (offset2 - slot.offset)
        .cont i slot offset2 (e.indexBlock + env.inodeTableStart) e.dataBlock st1
  | (none, st1) =>
      match empty_meta_index st1 ino.iIno (offset + 1) skip with
      | (none, st2) => .done st2
      | (some i, st2) => .cont i (getTbl st2 i) offset pos data st2

/-- The `while (offset < index)` loop of `fill_meta_index`.  The result is
`(some (offset * SQUASHFS_META_INDEXES * skip, cursor, data), state)` on the
`all_done` path and `(none, state)` on the `failed` path (the C `-1`).
Fuel: each iteration strictly increases `offset`, so `fuel := index`
suffices from `offset = 0`; the fuel-exhaustion branch coincides with the
loop-exit branch and is unreachable while `index ≤ offset + fuel`. -/
def fill_loop (env : MetaEnv) (ino : SqInode) (skip index : Nat) :
    Nat → Nat → Nat → Nat → MsblkState → Option (Nat × Nat × Nat) × MsblkState
  | 0, offset, pos, data, st =>
      (some (offset * SQUASHFS_META_INDEXES * skip, pos, data), st)
  | fuel + 1, offset, pos, data, st =>
      if offset < index then
        match fill_locate env ino skip index offset pos data st with
        | .fail st1 => (none, st1)
        | .done st1 => (some (offset * SQUASHFS_META_INDEXES * skip, pos, data), st1)
        | .cont i slot offset2 pos2 data2 st1 =>
            match grow_loop env index skip (SQUASHFS_META_ENTRIES + 1)
                (slot.offset + slot.entries) slot pos2 data2 offset2 with
            | (slot3, pos3, data3, offset3, ok) =>
                let st2 := storeSlot st1 i { slot3 with locked := false }
                if ok then fill_loop env ino skip index fuel offset3 pos3 data3 st2
                else (none, st2)
      else (some (offset * SQUASHFS_META_INDEXES * skip, pos, data), st)

/-- Function `fill_meta_index`: scale the raw block index to cache-index units, then
search and grow the index cache, returning the raw index covered by the
returned resume point, the block-list cursor and the cumulative data
position there (`none` = the C `-1`). -/
def fill_meta_index (env : MetaEnv) (ino : SqInode) (st : MsblkState) (index0 : Nat) :
    Option (Nat × Nat × Nat) × MsblkState :=
  let skip := calculate_skip (ino.iSize / 2 ^ env.blockLog)
  fill_loop env ino skip (index0 / (SQUASHFS_META_INDEXES * skip))
    (index0 / (SQUASHFS_META_INDEXES * skip)) 0 ino.blockListStart ino.startBlock st

/-- Function `read_blocklist`: get the on-disk cumulative data position and raw
compressed-size field of datablock `index`.  `fill_meta_index` provides a
resume point; the tail walk covers the rest.  `none` is the C failure
return (`0`). -/
def read_blocklist (env : MetaEnv) (ino : SqInode) (st : MsblkState) (index : Nat) :
    Option (Nat × Nat) × MsblkState :=
  match fill_meta_index env ino st index with
  | (none, st1) => (none, st1)
  | (some (res, pos, data), st1) => (read_blocklist_tail env res pos data index, st1)

/-- The direct, uncached walk of the block list: resolve `index` with the
code's own tail walker, starting from the inode's block-list start with no
cache contribution (resume point at raw index 0).  `read_blocklist`
refines this. -/
def read_blocklist_uncached (env : MetaEnv) (ino : SqInode) (index : Nat) :
    Option (Nat × Nat) :=
  read_blocklist_tail env 0 ino.blockListStart ino.startBlock index

/-! ### Cache validity -/

/-- Number of raw block-list entries covered by one cache index step of a
file: `skip * SQUASHFS_META_INDEXES`. -/
def entrySpan (env : MetaEnv) (ino : SqInode) : Nat :=
  calculate_skip (ino.iSize / 2 ^ env.blockLog) * SQUASHFS_META_INDEXES

/-- The correct cache entry for cache index `o` of an inode: the stored
(relativized) cursor after `o * entrySpan` block-list entries, and the
cumulative data position there. -/
def mkEntry (env : MetaEnv) (ino : SqInode) (o : Nat) : MetaEntryM :=
  ⟨ino.blockListStart + o * entrySpan env ino - env.inodeTableStart,
   ino.startBlock + blockSum env.meta ino.blockListStart (o * entrySpan env ino)⟩

/-- A slot owned by `ino` and not busy is valid: nonzero start offset, at
least one entry, the inode's own skip factor, and every populated entry
holds exactly the resume point and cumulative data position of its cache
index. -/
def SlotValid (env : MetaEnv) (ino : SqInode) (s : MetaIndexSlot) : Prop :=
  1 ≤ s.offset ∧ 1 ≤ s.entries ∧
  s.skip = calculate_skip (ino.iSize / 2 ^ env.blockLog) ∧
  ∀ k, k < s.entries → s.meta_entry k = mkEntry env ino (s.offset + k)

/-- Validity of a slot-table state with respect to one inode: every
non-busy slot owned by that inode is valid.  Busy slots (leased by an
in-flight resolution, possibly of another thread) and slots of other files
are unconstrained. -/
def ValidState (env : MetaEnv) (ino : SqInode) (st : MsblkState) : Prop :=
  ∀ tbl, st.metaIndex = some tbl →
    ∀ i, i < SQUASHFS_META_SLOTS →
      (tbl i).inodeNumber = ino.iIno → (tbl i).locked = false →
        SlotValid env ino (tbl i)

/-- Well-formedness of the environment/inode pair: stored cursors
(`cur_index_block - inode_table_start`) never underflow because the block
list lives inside the inode table, and inode numbers are nonzero (`0`
marks a free slot). -/
def EnvWf (env : MetaEnv) (ino : SqInode) : Prop :=
  env.inodeTableStart ≤ ino.blockListStart ∧ ino.iIno ≠ 0

/-- All metadata reads succeed (no storage errors). -/
def AllReadsOk (env : MetaEnv) : Prop :=
  ∀ p n, env.metaOk p n = true

/-- Whether slot `j` of table `tbl` qualifies for
`locate_meta_index ino off index`: owned by `ino`, start offset within
`[off, index]`, not busy. -/
def slotQualifies (tbl : Nat → MetaIndexSlot) (ino off index j : Nat) : Prop :=
  (tbl j).inodeNumber = ino ∧ off ≤ (tbl j).offset ∧ (tbl j).offset ≤ index ∧
    (tbl j).locked = false

/-! ### `squashfs_readpage` -/

/-- The faulted page as handed to `->readpage`: its index in the mapping,
its flags, and its byte contents. -/
structure PageIn where
  index : Nat
  uptodate : Bool
  error : Bool
  contents : Nat → Nat

/-- Final state of the faulted page when `squashfs_readpage` returns. -/
structure PageOut where
  contents : Nat → Nat
  uptodate : Bool
  error : Bool
  locked : Bool

/-- Environment of one `squashfs_readpage` call, with the collaborators
abstracted as oracles: `rbl index = (block, bsize)` is the result of
`read_blocklist` (`block = 0` encodes its failure return, as in the C);
`readData block bsize` is the byte count returned by `squashfs_read_data`
(`0` = failure) and `readPageBytes` the decompressed bytes it leaves in
`msblk->read_page`; the fragment oracle exposes its error flag, bytes, and
the inode's intra-fragment offset. -/
structure RPEnv where
  blockLog : Nat
  iSize : Nat
  hasFragment : Bool
  rbl : Nat → Nat × Nat
  readData : Nat → Nat → Nat
  readPageBytes : Nat → Nat
  fragError : Bool
  fragBytes : Nat → Nat
  fragOffset : Nat

/-- The `out:` exit of `squashfs_readpage` (with `errSet` telling whether
control passed through `error_out: SetPageError`): zero the whole faulted
page, mark it up to date only if its error flag is clear, unlock it. -/
def out_page (page : PageIn) (errSet : Bool) : PageOut :=
  { contents := fun _ => 0,
    uptodate := if page.error || errSet then page.uptodate else true,
    error := page.error || errSet,
    locked := false }

/-- The page-push loop of `squashfs_readpage` (`for (i = start_index;
i <= end_index && bytes > 0; ...)`), tracked for its effect on the faulted
page only (iterations at other indices touch other pages of the mapping):
at the faulted page's iteration, if it is already up to date it is only
unlocked (`skip_page`); otherwise `avail` bytes are copied from the data
buffer at the running offset `dp`, the rest of the page is zeroed, and the
page is marked up to date and unlocked.  `bytes` is the C `int` countdown.
Fuel: callers pass `end_index + 1 - start_index`; the fuel-exhaustion
branch coincides with the `i > end_index` exit. -/
def fill_pages (page : PageIn) (end_index : Nat) (sparse : Bool) (data : Nat → Nat) :
    Nat → Nat → Int → Nat → PageOut → PageOut
  | 0, _, _, _, cur => cur
  | fuel + 1, i, bytes, dp, cur =>
      if i ≤ end_index ∧ 0 < bytes then
        let avail : Nat := if sparse then 0 else min bytes.toNat PAGE_CACHE_SIZE
        let cur2 :=
          if i = page.index then
            if page.uptodate then { cur with locked := false }
            else
              { contents := fun j => if j < avail then data (dp + j) else 0,
                uptodate := true, error := cur.error, locked := false }
          else cur
        fill_pages page end_index sparse data fuel (i + 1) (bytes - (PAGE_CACHE_SIZE : Int))
          (dp + PAGE_CACHE_SIZE) cur2
      else cur

/-- Function `squashfs_readpage`, as it affects the faulted page; the second
component is the return value (the C function returns 0 on every path).
The `kmalloc` of the scratch block list is not modelled (it succeeds; its
failure path is the same `error_out`). -/
def squashfs_readpage (env : RPEnv) (page : PageIn) : PageOut × Nat :=
  let shift := env.blockLog - PAGE_CACHE_SHIFT
  let index := page.index >>> shift
  let mask := (1 <<< shift) - 1
  let start_index := (page.index >>> shift) <<< shift
  let end_index := start_index + mask
  let file_end := env.iSize >>> env.blockLog
  if (env.iSize + PAGE_CACHE_SIZE - 1) >>> PAGE_CACHE_SHIFT ≤ page.index then
    (out_page page false, 0)
  else if index < file_end ∨ env.hasFragment = false then
    if (env.rbl index).1 = 0 then (out_page page true, 0)
    else if (env.rbl index).2 = 0 then
      let bytes : Nat := if index = file_end then env.iSize % 2 ^ env.blockLog
        else 2 ^ env.blockLog
      (fill_pages page end_index true env.readPageBytes (end_index + 1 - start_index)
        start_index (bytes : Int) 0 ⟨page.contents, page.uptodate, page.error, true⟩, 0)
    else
      let bytes := env.readData (env.rbl index).1 (env.rbl index).2
      if bytes = 0 then (out_page page true, 0)
      else
        (fill_pages page end_index false env.readPageBytes (end_index + 1 - start_index)
          start_index (bytes : Int) 0 ⟨page.contents, page.uptodate, page.error, true⟩, 0)
  else
    if env.fragError then (out_page page true, 0)
    else
      (fill_pages page end_index false (fun j => env.fragBytes (env.fragOffset + j))
        (end_index + 1 - start_index) start_index ((env.iSize % 2 ^ env.blockLog : Nat) : Int)
        0 ⟨page.contents, page.uptodate, page.error, true⟩, 0)

/-! ### Concrete instances for witnesses and counterexamples -/

/-- A deterministic environment with constant compressed size 3 per entry
and no read errors. -/
def env0 : MetaEnv :=
  { meta := fun _ => 3, metaOk := fun _ _ => true, inodeTableStart := 0, blockLog := 17 }

/-- A small inode for `env0`. -/
def ino0 : SqInode :=
  { iIno := 1, iSize := 655360, blockListStart := 0, startBlock := 10 }

/-- The pristine slot-table state (table not yet allocated). -/
def st0 : MsblkState := { metaIndex := none, nextMetaIndex := 0 }

/-- An all-holes environment (every block-list entry 0). -/
def envZ : MetaEnv :=
  { meta := fun _ => 0, metaOk := fun _ _ => true, inodeTableStart := 0, blockLog := 12 }

/-- A sparse file of 5000 blocks for `envZ` (skip factor 1). -/
def inoZ : SqInode :=
  { iIno := 1, iSize := 4096 * 5000, blockListStart := 0, startBlock := 100 }

/-- A concrete slot table: slot 2 owned by inode 7 at offset 3, slot 5
owned by inode 7 at offset 2, everything else free. -/
def tbl8 : Nat → MetaIndexSlot := fun i =>
  if i = 2 then
    { inodeNumber := 7, offset := 3, skip := 1, entries := 4, locked := false,
      meta_entry := fun _ => ⟨0, 0⟩ }
  else if i = 5 then
    { inodeNumber := 7, offset := 2, skip := 1, entries := 1, locked := false,
      meta_entry := fun _ => ⟨0, 0⟩ }
  else freshSlot

/-- State holding `tbl8`. -/
def st8 : MsblkState := { metaIndex := some tbl8, nextMetaIndex := 0 }

/-- A concrete slot table with slots 0 and 1 busy, the rest free. -/
def tbl9 : Nat → MetaIndexSlot := fun i =>
  if i ≤ 1 then
    { inodeNumber := 9, offset := 1, skip := 1, entries := 1, locked := true,
      meta_entry := fun _ => ⟨0, 0⟩ }
  else freshSlot

/-- State holding `tbl9`, cursor at 1. -/
def st9 : MsblkState := { metaIndex := some tbl9, nextMetaIndex := 1 }

/-- A fully busy slot table. -/
def tblB : Nat → MetaIndexSlot := fun _ =>
  { inodeNumber := 9, offset := 1, skip := 1, entries := 1, locked := true,
    meta_entry := fun _ => ⟨0, 0⟩ }

/-- State holding `tblB`. -/
def stB : MsblkState := { metaIndex := some tblB, nextMetaIndex := 3 }

/-- Readpage environment whose block resolution always fails. -/
def envE : RPEnv :=
  { blockLog := 12, iSize := 4096, hasFragment := false, rbl := fun _ => (0, 0),
    readData := fun _ _ => 0, readPageBytes := fun _ => 9, fragError := false,
    fragBytes := fun _ => 9, fragOffset := 0 }

/-- A freshly faulted page at index 0: locked by the caller, not up to
date, no error, stale contents. -/
def pageE : PageIn := { index := 0, uptodate := false, error := false, contents := fun _ => 7 }

/-- Readpage environment where block 0 resolves to a hole. -/
def envH : RPEnv :=
  { blockLog := 13, iSize := 20000, hasFragment := false, rbl := fun _ => (77, 0),
    readData := fun _ _ => 0, readPageBytes := fun _ => 9, fragError := false,
    fragBytes := fun _ => 9, fragOffset := 0 }

/-- A freshly faulted page at index 1 for `envH`. -/
def pageH : PageIn := { index := 1, uptodate := false, error := false, contents := fun _ => 7 }

/-- A page index past the end of `envH`'s file. -/
def pageX : PageIn := { index := 40, uptodate := false, error := false, contents := fun _ => 7 }

/-! ## Theorems -/

theorem blockSum_add (meta : Nat → Nat) (pos m n : Nat) :
    blockSum meta pos (m + n) = blockSum meta pos m + blockSum meta (pos + m) n := by
  induction n with
  | zero => simp [blockSum]
  | succ n ih =>
      show blockSum meta pos (m + n + 1) = _
      rw [blockSum, ih, blockSum, ← Nat.add_assoc pos m n]
      omega

theorem blockSum_mono (meta : Nat → Nat) (pos : Nat) {m n : Nat} (h : m ≤ n) :
    blockSum meta pos m ≤ blockSum meta pos n := by
  obtain ⟨k, rfl⟩ := Nat.le.dest h
  rw [blockSum_add]
  exact Nat.le_add_right _ _

/-- The batched tail walk either fails (when a batched read fails) or
returns exactly the cursor advanced by `remaining` entries and the data
position increased by the sum of their compressed sizes. -/
theorem rbl_tail_spec (env : MetaEnv) :
    ∀ fuel remaining pos data, remaining ≤ fuel →
      rbl_tail env fuel remaining pos data =
        if tail_ok env fuel remaining pos then
          some (pos + remaining, data + blockSum env.meta pos remaining)
        else none := by
  intro fuel
  induction fuel with
  | zero =>
      intro remaining pos data h
      interval_cases remaining
      simp [rbl_tail, tail_ok, blockSum]
  | succ fuel ih =>
      intro remaining pos data h
      match remaining with
      | 0 => simp [rbl_tail, tail_ok, blockSum]
      | r + 1 =>
          have hb1 : 1 ≤ min (r + 1) (PAGE_CACHE_SIZE / 4) := by
            simp only [PAGE_CACHE_SIZE]; omega
          have hble : min (r + 1) (PAGE_CACHE_SIZE / 4) ≤ r + 1 := Nat.min_le_left _ _
          rw [rbl_tail, tail_ok, read_block_indexes]
          by_cases hok : env.metaOk pos (min (r + 1) (PAGE_CACHE_SIZE / 4))
          · rw [if_pos hok]
            simp only
            rw [ih _ _ _ (by omega), hok, Bool.true_and]
            by_cases hrest : tail_ok env fuel (r + 1 - min (r + 1) (PAGE_CACHE_SIZE / 4))
                (pos + min (r + 1) (PAGE_CACHE_SIZE / 4))
            · rw [if_pos hrest, if_pos hrest]
              have hsplit := blockSum_add env.meta pos (min (r + 1) (PAGE_CACHE_SIZE / 4))
                (r + 1 - min (r + 1) (PAGE_CACHE_SIZE / 4))
              rw [Nat.add_sub_cancel' hble] at hsplit
              refine congrArg some (Prod.ext ?_ ?_) <;> simp only
              · omega
              · rw [hsplit]; omega
            · rw [if_neg hrest, if_neg hrest]
          · rw [if_neg hok]
            simp only [hok, Bool.false_and, if_neg Bool.false_ne_true]

/-- When no metadata read fails, the batched tail walk succeeds. -/
theorem tail_ok_of_allOk (env : MetaEnv) (h : AllReadsOk env) :
    ∀ fuel remaining pos, remaining ≤ fuel → tail_ok env fuel remaining pos = true := by
  intro fuel
  induction fuel with
  | zero =>
      intro remaining pos hr
      interval_cases remaining
      rfl
  | succ fuel ih =>
      intro remaining pos hr
      match remaining with
      | 0 => rfl
      | r + 1 =>
          have hb1 : 1 ≤ min (r + 1) (PAGE_CACHE_SIZE / 4) := by
            simp only [PAGE_CACHE_SIZE]; omega
          rw [tail_ok, h, Bool.true_and]
          exact ih _ _ (by omega)

/-- Characterization of the tail phase of `read_blocklist`: it returns the
resumed data position plus the sum of the compressed sizes of the
`index - res` walked entries, paired with the raw value of the one further
entry, exactly when every batched read and the final single-entry read
succeed, and fails otherwise. -/
theorem read_blocklist_tail_eq (env : MetaEnv) (res pos data index : Nat) :
    read_blocklist_tail env res pos data index =
      if tail_ok env index (index - res) pos && env.metaOk (pos + (index - res)) 1 then
        some (data + blockSum env.meta pos (index - res), env.meta (pos + (index - res)))
      else none := by
  unfold read_blocklist_tail
  rw [rbl_tail_spec env index (index - res) pos data (Nat.sub_le _ _)]
  by_cases h1 : tail_ok env index (index - res) pos = true
  · rw [if_pos h1]
    simp only [h1, Bool.true_and]
  · rw [if_neg h1]
    simp only [Bool.not_eq_true] at h1
    simp [h1]

/-- C4: from a resume point `(res, pos, data)` with `res ≤ index`, the tail
walk of `read_blocklist` reads exactly `index - res` further block-list
entries (in batches of at most a page of 32-bit fields), adds each entry's
compressed size to the cumulative data position, then reads exactly one
more entry whose raw value becomes the returned block size; it succeeds
with exactly that value when every metadata read involved succeeds, and
returns failure when any of them fails. -/
theorem claim_C4 (env : MetaEnv) (res pos data index : Nat) (h : res ≤ index) :
    read_blocklist_tail env res pos data index =
      if tail_ok env index (index - res) pos && env.metaOk (pos + (index - res)) 1 then
        some (data + blockSum env.meta pos (index - res), env.meta (pos + (index - res)))
      else none :=
  read_blocklist_tail_eq env res pos data index

theorem claim_C4_witness :
    read_blocklist_tail env0 1 5 7 3 =
      if tail_ok env0 3 (3 - 1) 5 && env0.metaOk (5 + (3 - 1)) 1 then
        some (7 + blockSum env0.meta 5 (3 - 1), env0.meta (5 + (3 - 1)))
      else none :=
  claim_C4 env0 1 5 7 3 (by decide)

/-- Under `AllReadsOk`, `read_span` advances the cursor by exactly `blocks`
entries and adds their compressed-size sum to the data position. -/
theorem read_span_spec (env : MetaEnv) (h : AllReadsOk env) :
    ∀ fuel blocks pos data, blocks ≤ fuel →
      read_span env fuel blocks pos data =
        some (pos + blocks, data + blockSum env.meta pos blocks) := by
  intro fuel
  induction fuel with
  | zero =>
      intro blocks pos data hb
      interval_cases blocks
      simp [read_span, blockSum]
  | succ fuel ih =>
      intro blocks pos data hb
      match blocks with
      | 0 => simp [read_span, blockSum]
      | b + 1 =>
          have hb1 : 1 ≤ min (PAGE_CACHE_SIZE / 4) (b + 1) := by
            simp only [PAGE_CACHE_SIZE]; omega
          have hble : min (PAGE_CACHE_SIZE / 4) (b + 1) ≤ b + 1 := Nat.min_le_right _ _
          rw [read_span, read_block_indexes, if_pos (h _ _)]
          simp only
          rw [ih _ _ _ (by omega)]
          have hsplit := blockSum_add env.meta pos (min (PAGE_CACHE_SIZE / 4) (b + 1))
            (b + 1 - min (PAGE_CACHE_SIZE / 4) (b + 1))
          rw [Nat.add_sub_cancel' hble] at hsplit
          refine congrArg some (Prod.ext ?_ ?_) <;> simp only
          · omega
          · rw [hsplit]; omega

/-- Whenever `read_span` succeeds, the cursor has advanced by exactly
`blocks` entries and the data position has not decreased. -/
theorem read_span_some (env : MetaEnv) :
    ∀ fuel blocks pos data pos2 data2,
      read_span env fuel blocks pos data = some (pos2, data2) →
      pos2 = pos + blocks ∧ data ≤ data2 := by
  intro fuel
  induction fuel with
  | zero =>
      intro blocks pos data pos2 data2 hs
      match blocks with
      | 0 => simp [read_span] at hs; omega
      | b + 1 => simp [read_span] at hs
  | succ fuel ih =>
      intro blocks pos data pos2 data2 hs
      match blocks with
      | 0 => simp [read_span] at hs; omega
      | b + 1 =>
          rw [read_span, read_block_indexes] at hs
          by_cases hok : env.metaOk pos (min (PAGE_CACHE_SIZE / 4) (b + 1)) = true
          · rw [if_pos hok] at hs
            simp only at hs
            have hble : min (PAGE_CACHE_SIZE / 4) (b + 1) ≤ b + 1 := Nat.min_le_right _ _
            obtain ⟨h1, h2⟩ := ih _ _ _ _ _ hs
            constructor
            · omega
            · omega
          · rw [if_neg hok] at hs
            simp at hs

theorem locate_scan_cons (tbl : Nat → MetaIndexSlot) (ino index j : Nat) (l : List Nat)
    (acc : Option Nat × Nat) :
    locate_scan tbl ino index (j :: l) acc =
      locate_scan tbl ino index l
        (if (tbl j).inodeNumber = ino ∧ acc.2 ≤ (tbl j).offset ∧
            (tbl j).offset ≤ index ∧ (tbl j).locked = false
         then (some j, (tbl j).offset) else acc) := rfl

/-- The locate scan either leaves the accumulator unchanged or stops on a
scanned slot that matched: owned, start offset within bounds, not busy. -/
theorem locate_scan_cases (tbl : Nat → MetaIndexSlot) (ino index : Nat) :
    ∀ (l : List Nat) (acc : Option Nat × Nat),
      locate_scan tbl ino index l acc = acc ∨
      ∃ i, i ∈ l ∧ locate_scan tbl ino index l acc = (some i, (tbl i).offset) ∧
        (tbl i).inodeNumber = ino ∧ (tbl i).offset ≤ index ∧ (tbl i).locked = false ∧
        acc.2 ≤ (tbl i).offset := by
  intro l
  induction l with
  | nil => intro acc; left; rfl
  | cons j l ih =>
      intro acc
      rw [locate_scan_cons]
      by_cases hc : (tbl j).inodeNumber = ino ∧ acc.2 ≤ (tbl j).offset ∧
          (tbl j).offset ≤ index ∧ (tbl j).locked = false
      · rw [if_pos hc]
        rcases ih (some j, (tbl j).offset) with h | ⟨i, hi, heq, h1, h2, h3, h4⟩
        · right
          exact ⟨j, List.mem_cons_self _ _, by rw [h], hc.1, hc.2.2.1, hc.2.2.2, hc.2.1⟩
        · right
          exact ⟨i, List.mem_cons_of_mem _ hi, heq, h1, h2, h3, le_trans hc.2.1 h4⟩
      · rw [if_neg hc]
        rcases ih acc with h | ⟨i, hi, heq, h1, h2, h3, h4⟩
        · left; exact h
        · right; exact ⟨i, List.mem_cons_of_mem _ hi, heq, h1, h2, h3, h4⟩

/-- The running `offset` of the locate scan never decreases. -/
theorem locate_scan_snd_mono (tbl : Nat → MetaIndexSlot) (ino index : Nat) (l : List Nat)
    (acc : Option Nat × Nat) : acc.2 ≤ (locate_scan tbl ino index l acc).2 := by
  rcases locate_scan_cases tbl ino index l acc with h | ⟨i, _, heq, _, _, _, h4⟩
  · rw [h]
  · rw [heq]; exact h4

/-- Every matching slot in the scanned list has start offset at most the
final running `offset` of the scan. -/
theorem locate_scan_max (tbl : Nat → MetaIndexSlot) (ino index : Nat) :
    ∀ (l : List Nat) (acc : Option Nat × Nat) (j : Nat), j ∈ l →
      (tbl j).inodeNumber = ino → (tbl j).offset ≤ index → (tbl j).locked = false →
      acc.2 ≤ (tbl j).offset →
      (tbl j).offset ≤ (locate_scan tbl ino index l acc).2 := by
  intro l
  induction l with
  | nil => intro acc j hj; cases hj
  | cons k l ih =>
      intro acc j hj h1 h2 h3 h4
      rw [locate_scan_cons]
      rcases List.mem_cons.mp hj with rfl | hj2
      · have hc : (tbl j).inodeNumber = ino ∧ acc.2 ≤ (tbl j).offset ∧
            (tbl j).offset ≤ index ∧ (tbl j).locked = false := ⟨h1, h4, h2, h3⟩
        rw [if_pos hc]
        have := locate_scan_snd_mono tbl ino index l (some j, (tbl j).offset)
        simpa using this
      · by_cases hc : (tbl k).inodeNumber = ino ∧ acc.2 ≤ (tbl k).offset ∧
            (tbl k).offset ≤ index ∧ (tbl k).locked = false
        · rw [if_pos hc]
          by_cases h5 : (tbl k).offset ≤ (tbl j).offset
          · exact ih _ j hj2 h1 h2 h3 h5
          · have := locate_scan_snd_mono tbl ino index l (some k, (tbl k).offset)
            simp only at this
            omega
        · rw [if_neg hc]
          exact ih acc j hj2 h1 h2 h3 h4

theorem locate_scan_some_of_some (tbl : Nat → MetaIndexSlot) (ino index : Nat)
    (l : List Nat) (acc : Option Nat × Nat) (i0 : Nat) (h : acc.1 = some i0) :
    ∃ i, (locate_scan tbl ino index l acc).1 = some i := by
  rcases locate_scan_cases tbl ino index l acc with heq | ⟨i, _, heq, _⟩
  · exact ⟨i0, by rw [heq, h]⟩
  · exact ⟨i, by rw [heq]⟩

/-- If some scanned slot matches, the scan does not come back empty. -/
theorem locate_scan_found (tbl : Nat → MetaIndexSlot) (ino index : Nat) :
    ∀ (l : List Nat) (acc : Option Nat × Nat) (j : Nat), j ∈ l →
      (tbl j).inodeNumber = ino → (tbl j).offset ≤ index → (tbl j).locked = false →
      acc.2 ≤ (tbl j).offset →
      ∃ i, (locate_scan tbl ino index l acc).1 = some i := by
  intro l
  induction l with
  | nil => intro acc j hj; cases hj
  | cons k l ih =>
      intro acc j hj h1 h2 h3 h4
      rw [locate_scan_cons]
      by_cases hc : (tbl k).inodeNumber = ino ∧ acc.2 ≤ (tbl k).offset ∧
          (tbl k).offset ≤ index ∧ (tbl k).locked = false
      · rw [if_pos hc]
        exact locate_scan_some_of_some tbl ino index l _ k rfl
      · rw [if_neg hc]
        rcases List.mem_cons.mp hj with rfl | hj2
        · exact absurd ⟨h1, h4, h2, h3⟩ hc
        · exact ih acc j hj2 h1 h2 h3 h4

/-- Case analysis on `locate_meta_index`: unallocated table, scan miss, or
scan hit (in which case the returned state is the input state with the hit
slot marked busy). -/
theorem locate_result (st : MsblkState) (ino off index : Nat) :
    (st.metaIndex = none ∧ locate_meta_index st ino off index = (none, st)) ∨
    (∃ tbl, st.metaIndex = some tbl ∧
      ((locate_scan tbl ino index (List.range SQUASHFS_META_SLOTS)
          ((none : Option Nat), off)).1 = none ∧
        locate_meta_index st ino off index = (none, st) ∨
       ∃ i, (locate_scan tbl ino index (List.range SQUASHFS_META_SLOTS)
          ((none : Option Nat), off)).1 = some i ∧
        locate_meta_index st ino off index =
          (some i,
            { st with
                metaIndex := some (setSlot tbl i { tbl i with locked := true }) }))) := by
  cases hm : st.metaIndex with
  | none =>
      left
      exact ⟨rfl, by simp only [locate_meta_index, hm]⟩
  | some tbl =>
      right
      refine ⟨tbl, rfl, ?_⟩
      cases hr : (locate_scan tbl ino index (List.range SQUASHFS_META_SLOTS)
          ((none : Option Nat), off)).1 with
      | none =>
          left
          exact ⟨rfl, by simp only [locate_meta_index, hm]; rw [hr]⟩
      | some i =>
          right
          exact ⟨i, rfl, by simp only [locate_meta_index, hm]; rw [hr]⟩

theorem setSlot_same (tbl : Nat → MetaIndexSlot) (i : Nat) (s : MetaIndexSlot) :
    setSlot tbl i s i = s := by
  simp [setSlot]

theorem setSlot_other (tbl : Nat → MetaIndexSlot) (i : Nat) (s : MetaIndexSlot) (j : Nat)
    (h : j ≠ i) : setSlot tbl i s j = tbl j := by
  simp [setSlot, h]

theorem setSlot_setSlot (tbl : Nat → MetaIndexSlot) (i : Nat) (a b : MetaIndexSlot) :
    setSlot (setSlot tbl i a) i b = setSlot tbl i b := by
  funext j
  by_cases h : j = i <;> simp [setSlot, h]

/-- Validity of a state whose table is `tbl` with slot `i` replaced by `s`. -/
theorem ValidState_store (env : MetaEnv) (ino : SqInode) (tbl : Nat → MetaIndexSlot)
    (i : Nat) (s : MetaIndexSlot) (nmi : Nat)
    (hother : ∀ j, j < SQUASHFS_META_SLOTS → j ≠ i → (tbl j).inodeNumber = ino.iIno →
      (tbl j).locked = false → SlotValid env ino (tbl j))
    (hs : s.locked = false → SlotValid env ino s) :
    ValidState env ino ⟨some (setSlot tbl i s), nmi⟩ := by
  intro tbl2 hmeq j hj hown hlock
  simp only at hmeq
  injection hmeq with hmeq
  subst hmeq
  by_cases hji : j = i
  · subst hji
    rw [setSlot_same] at hown hlock ⊢
    exact hs hlock
  · rw [setSlot_other _ _ _ _ hji] at hown hlock ⊢
    exact hother j hj hji hown hlock

/-- When `locate_meta_index` hits, the hit slot qualifies, its start offset
is maximal among qualifying slots, and the returned state is the input
state with the hit slot marked busy. -/
theorem locate_hit (st : MsblkState) (tbl : Nat → MetaIndexSlot) (ino off index i : Nat)
    (hm : st.metaIndex = some tbl)
    (hi : (locate_meta_index st ino off index).1 = some i) :
    i < SQUASHFS_META_SLOTS ∧ slotQualifies tbl ino off index i ∧
    (∀ j, j < SQUASHFS_META_SLOTS → slotQualifies tbl ino off index j →
      (tbl j).offset ≤ (tbl i).offset) ∧
    locate_meta_index st ino off index =
      (some i,
        { st with
            metaIndex := some (setSlot tbl i { tbl i with locked := true }) }) := by
  rcases locate_result st ino off index with ⟨hm2, _⟩ | ⟨tbl2, hm2, hcase⟩
  · rw [hm] at hm2; cases hm2
  · rw [hm] at hm2
    injection hm2 with hm2
    subst hm2
    rcases hcase with ⟨hscan, hres⟩ | ⟨i2, hscan, hres⟩
    · rw [hres] at hi; cases hi
    · rw [hres] at hi
      simp only at hi
      injection hi with hi
      subst hi
      rcases locate_scan_cases tbl ino index (List.range SQUASHFS_META_SLOTS)
          ((none : Option Nat), off) with heq | ⟨i3, hi3, heq, h1, h2, h3, h4⟩
      · rw [heq] at hscan; cases hscan
      · rw [heq] at hscan
        simp only at hscan
        injection hscan with hscan
        subst hscan
        refine ⟨List.mem_range.mp hi3, ⟨h1, h4, h2, h3⟩, ?_, hres⟩
        intro j hj hq
        have := locate_scan_max tbl ino index (List.range SQUASHFS_META_SLOTS)
          ((none : Option Nat), off) j (List.mem_range.mpr hj) hq.1 hq.2.2.1
          hq.2.2.2 hq.2.1
        rw [heq] at this
        exact this

/-- C8: `locate(file, [off, index])` returns not-found when the slot table
is unallocated; with an allocated table it returns not-found when no slot
qualifies (owned by the file, start offset within `[off, index]`, not
busy); when it returns a slot, that slot qualifies, its start offset is
maximal among all qualifying slots, and the slot is marked busy in the
returned state; and whenever some slot qualifies, it does find one. -/
theorem claim_C8 (st : MsblkState) (ino off index : Nat) :
    (st.metaIndex = none → locate_meta_index st ino off index = (none, st)) ∧
    ∀ tbl, st.metaIndex = some tbl →
      ((∀ j, j < SQUASHFS_META_SLOTS → ¬ slotQualifies tbl ino off index j) →
        locate_meta_index st ino off index = (none, st)) ∧
      (∀ i, (locate_meta_index st ino off index).1 = some i →
        i < SQUASHFS_META_SLOTS ∧ slotQualifies tbl ino off index i ∧
        (∀ j, j < SQUASHFS_META_SLOTS → slotQualifies tbl ino off index j →
          (tbl j).offset ≤ (tbl i).offset) ∧
        locate_meta_index st ino off index =
          (some i,
            { st with
                metaIndex := some (setSlot tbl i { tbl i with locked := true }) })) ∧
      ((∃ j, j < SQUASHFS_META_SLOTS ∧ slotQualifies tbl ino off index j) →
        ∃ i, (locate_meta_index st ino off index).1 = some i) := by
  constructor
  · intro hm
    rcases locate_result st ino off index with ⟨_, h⟩ | ⟨tbl, hm2, _⟩
    · exact h
    · rw [hm] at hm2; cases hm2
  · intro tbl hm
    rcases locate_result st ino off index with ⟨hm2, _⟩ | ⟨tbl2, hm2, hcase⟩
    · rw [hm] at hm2; cases hm2
    · rw [hm] at hm2
      injection hm2 with hm2
      subst hm2
      refine ⟨?_, ?_, ?_⟩
      · intro hnone
        rcases hcase with ⟨_, h⟩ | ⟨i, hscan, _⟩
        · exact h
        · exfalso
          rcases locate_scan_cases tbl ino index (List.range SQUASHFS_META_SLOTS)
              ((none : Option Nat), off) with heq | ⟨i2, hi2, heq, h1, h2, h3, h4⟩
          · rw [heq] at hscan; cases hscan
          · exact hnone i2 (List.mem_range.mp hi2) ⟨h1, h4, h2, h3⟩
      · intro i hi
        rcases hcase with ⟨hscan, hres⟩ | ⟨i2, hscan, hres⟩
        · rw [hres] at hi; cases hi
        · rw [hres] at hi
          simp only at hi
          injection hi with hi
          subst hi
          rcases locate_scan_cases tbl ino index (List.range SQUASHFS_META_SLOTS)
              ((none : Option Nat), off) with heq | ⟨i3, hi3, heq, h1, h2, h3, h4⟩
          · rw [heq] at hscan; cases hscan
          · rw [heq] at hscan
            simp only at hscan
            injection hscan with hscan
            subst hscan
            refine ⟨List.mem_range.mp hi3, ⟨h1, h4, h2, h3⟩, ?_, hres⟩
            intro j hj hq
            have := locate_scan_max tbl ino index (List.range SQUASHFS_META_SLOTS)
              ((none : Option Nat), off) j (List.mem_range.mpr hj) hq.1 hq.2.2.1
              hq.2.2.2 hq.2.1
            rw [heq] at this
            exact this
      · rintro ⟨j, hj, hq⟩
        rcases hcase with ⟨hscan, _⟩ | ⟨i2, hscan, hres⟩
        · exfalso
          obtain ⟨i3, hi3⟩ := locate_scan_found tbl ino index
            (List.range SQUASHFS_META_SLOTS) ((none : Option Nat), off) j
            (List.mem_range.mpr hj) hq.1 hq.2.2.1 hq.2.2.2 hq.2.1
          rw [hscan] at hi3; cases hi3
        · exact ⟨i2, by rw [hres]⟩

theorem claim_C8_witness :
    locate_meta_index st8 7 1 5 =
      (some 2, { st8 with metaIndex := some (setSlot tbl8 2 { tbl8 2 with locked := true }) }) :=
  ((((claim_C8 st8 7 1 5).2 tbl8 rfl).2.1) 2 rfl).2.2.2

/-- A successful round-robin probe lands on a non-busy slot of the table
(and its result is always a valid slot position). -/
theorem scanFree_some (tbl : Nat → MetaIndexSlot) :
    ∀ n next p, scanFree tbl n next = some p →
      p < SQUASHFS_META_SLOTS ∧ (tbl p).locked = false := by
  intro n
  induction n with
  | zero => intro next p h; cases h
  | succ n ih =>
      intro next p h
      rw [scanFree] at h
      by_cases hl : (tbl (next % SQUASHFS_META_SLOTS)).locked = true
      · rw [if_pos hl] at h
        exact ih _ _ h
      · rw [if_neg hl] at h
        injection h with h
        subst h
        refine ⟨Nat.mod_lt _ (by simp [SQUASHFS_META_SLOTS]), ?_⟩
        simpa using hl

/-- If every slot probed in `n` steps from `next` is busy, the round-robin
probe fails. -/
theorem scanFree_none (tbl : Nat → MetaIndexSlot) :
    ∀ n next, (∀ k, k < n → (tbl ((next + k) % SQUASHFS_META_SLOTS)).locked = true) →
      scanFree tbl n next = none := by
  intro n
  induction n with
  | zero => intro next _; rfl
  | succ n ih =>
      intro next h
      rw [scanFree]
      have h0 : (tbl (next % SQUASHFS_META_SLOTS)).locked = true := by
        have := h 0 (Nat.succ_pos n)
        simpa using this
      rw [if_pos h0]
      apply ih
      intro k hk
      have hmod : ((next + 1) % SQUASHFS_META_SLOTS + k) % SQUASHFS_META_SLOTS =
          (next + (k + 1)) % SQUASHFS_META_SLOTS := by
        simp only [SQUASHFS_META_SLOTS]
        omega
      rw [hmod]
      exact h (k + 1) (by omega)

/-- If the first `d` slots probed from `next` are busy and the slot at
probe distance `d < n` is free, the round-robin probe returns it. -/
theorem scanFree_found (tbl : Nat → MetaIndexSlot) :
    ∀ n next d, d < n →
      (∀ k, k < d → (tbl ((next + k) % SQUASHFS_META_SLOTS)).locked = true) →
      (tbl ((next + d) % SQUASHFS_META_SLOTS)).locked = false →
      scanFree tbl n next = some ((next + d) % SQUASHFS_META_SLOTS) := by
  intro n
  induction n with
  | zero => intro next d hd; omega
  | succ n ih =>
      intro next d hd hbusy hfree
      rw [scanFree]
      match d with
      | 0 =>
          rw [if_neg (by simpa using hfree)]
          simp
      | d + 1 =>
          have h0 : (tbl (next % SQUASHFS_META_SLOTS)).locked = true := by
            have := hbusy 0 (Nat.succ_pos d)
            simpa using this
          rw [if_pos h0]
          have hmod : ∀ k, ((next + 1) % SQUASHFS_META_SLOTS + k) % SQUASHFS_META_SLOTS =
              (next + (k + 1)) % SQUASHFS_META_SLOTS := by
            intro k
            simp only [SQUASHFS_META_SLOTS]
            omega
          have := ih ((next + 1) % SQUASHFS_META_SLOTS) d (by omega)
            (fun k hk => by rw [hmod k]; exact hbusy (k + 1) (by omega))
            (by rw [hmod d]; exact hfree)
          rw [this, hmod d]

/-- Case analysis of `empty_meta_index`: either it claims some non-busy
slot (reinitialised for the caller, busy, cursor advanced past it), or the
table was already allocated, every slot is busy, and the state is returned
unchanged. -/
theorem empty_spec (st : MsblkState) (ino off skip : Nat) :
    (∃ p, p < SQUASHFS_META_SLOTS ∧ ((getTbl st) p).locked = false ∧
      empty_meta_index st ino off skip =
        (some p,
          { metaIndex := some (setSlot (getTbl st) p
              { inodeNumber := ino, offset := off, skip := skip, entries := 0,
                locked := true, meta_entry := ((getTbl st) p).meta_entry }),
            nextMetaIndex := (p + 1) % SQUASHFS_META_SLOTS })) ∨
    (st.metaIndex = some (getTbl st) ∧
      empty_meta_index st ino off skip = (none, st)) := by
  cases hscan : scanFree (getTbl st) SQUASHFS_META_SLOTS (emptyStart st) with
  | some p =>
      left
      obtain ⟨hp, hfree⟩ := scanFree_some (getTbl st) _ _ _ hscan
      exact ⟨p, hp, hfree, by rw [empty_meta_index, hscan]⟩
  | none =>
      right
      obtain ⟨mi, nmi⟩ := st
      cases mi with
      | none =>
          exfalso
          have h2 : scanFree (getTbl ⟨none, nmi⟩) SQUASHFS_META_SLOTS
              (emptyStart ⟨none, nmi⟩) = some 0 := by
            show scanFree (fun _ => freshSlot) SQUASHFS_META_SLOTS 0 = some 0
            decide
          rw [hscan] at h2
          cases h2
      | some tbl =>
          refine ⟨rfl, ?_⟩
          rw [empty_meta_index, hscan]
          rfl

/-- C9: with the slot table already allocated and the round-robin cursor in
range, `empty_meta_index` scans at most one full round from the cursor: if
every slot is busy it fails, returning the state unchanged (no slot
modified, cursor back where it started); otherwise it claims the first
non-busy slot in probe order, overwrites its ownership with the given
file, start index and skip and zero entries, marks it busy, advances the
cursor past it, and returns it, all other slots unchanged. -/
theorem claim_C9 (st : MsblkState) (tbl : Nat → MetaIndexSlot) (ino off skip : Nat)
    (hm : st.metaIndex = some tbl) (hn : st.nextMetaIndex < SQUASHFS_META_SLOTS) :
    ((∀ j, j < SQUASHFS_META_SLOTS → (tbl j).locked = true) →
      empty_meta_index st ino off skip = (none, st)) ∧
    ∀ d, d < SQUASHFS_META_SLOTS →
      (∀ k, k < d → (tbl ((st.nextMetaIndex + k) % SQUASHFS_META_SLOTS)).locked = true) →
      (tbl ((st.nextMetaIndex + d) % SQUASHFS_META_SLOTS)).locked = false →
      empty_meta_index st ino off skip =
        (some ((st.nextMetaIndex + d) % SQUASHFS_META_SLOTS),
          { metaIndex := some (setSlot tbl ((st.nextMetaIndex + d) % SQUASHFS_META_SLOTS)
              { inodeNumber := ino, offset := off, skip := skip, entries := 0,
                locked := true,
                meta_entry := (tbl ((st.nextMetaIndex + d) % SQUASHFS_META_SLOTS)).meta_entry }),
            nextMetaIndex := ((st.nextMetaIndex + d) % SQUASHFS_META_SLOTS + 1) %
              SQUASHFS_META_SLOTS }) := by
  obtain ⟨mi, nmi⟩ := st
  simp only at hm hn
  subst hm
  constructor
  · intro hbusy
    have hsc : scanFree (getTbl ⟨some tbl, nmi⟩) SQUASHFS_META_SLOTS
        (emptyStart ⟨some tbl, nmi⟩) = none := by
      apply scanFree_none
      intro k _
      exact hbusy _ (Nat.mod_lt _ (by simp [SQUASHFS_META_SLOTS]))
    rw [empty_meta_index, hsc]
    rfl
  · intro d hd hbusy hfree
    have hsc : scanFree (getTbl ⟨some tbl, nmi⟩) SQUASHFS_META_SLOTS
        (emptyStart ⟨some tbl, nmi⟩) = some ((nmi + d) % SQUASHFS_META_SLOTS) :=
      scanFree_found tbl SQUASHFS_META_SLOTS nmi d hd hbusy hfree
    rw [empty_meta_index, hsc]
    rfl

theorem claim_C9_witness :
    empty_meta_index st9 7 4 1 =
      (some ((st9.nextMetaIndex + 1) % SQUASHFS_META_SLOTS),
        { metaIndex := some (setSlot tbl9 ((st9.nextMetaIndex + 1) % SQUASHFS_META_SLOTS)
            { inodeNumber := 7, offset := 4, skip := 1, entries := 0,
              locked := true,
              meta_entry := (tbl9 ((st9.nextMetaIndex + 1) % SQUASHFS_META_SLOTS)).meta_entry }),
          nextMetaIndex := ((st9.nextMetaIndex + 1) % SQUASHFS_META_SLOTS + 1) %
            SQUASHFS_META_SLOTS }) :=
  (claim_C9 st9 tbl9 7 4 1 rfl (by decide)).2 1 (by decide) (by decide) (by decide)

/-- Correctness of the grow loop when all metadata reads succeed: started
at the append position `i = slot.offset + slot.entries` with a cursor/data
pair corresponding to cache index `offset = i - 1`, it extends the slot up
to `index` or to the slot's capacity, each appended entry holding exactly
the resume point and cumulative data position of its cache index, and
returns the cursor/data pair of the final covered cache index. -/
theorem grow_spec (env : MetaEnv) (ino : SqInode) (index skip : Nat)
    (hallOk : AllReadsOk env)
    (hskip : skip = calculate_skip (ino.iSize / 2 ^ env.blockLog)) :
    ∀ fuel i slot pos data offset,
      i = slot.offset + slot.entries →
      i = offset + 1 →
      pos = ino.blockListStart + offset * entrySpan env ino →
      data = ino.startBlock + blockSum env.meta ino.blockListStart (offset * entrySpan env ino) →
      (∀ k, k < slot.entries → slot.meta_entry k = mkEntry env ino (slot.offset + k)) →
      slot.offset + SQUASHFS_META_ENTRIES ≤ i + fuel →
      ∃ slot2 offset2,
        grow_loop env index skip fuel i slot pos data offset =
          (slot2, ino.blockListStart + offset2 * entrySpan env ino,
           ino.startBlock + blockSum env.meta ino.blockListStart (offset2 * entrySpan env ino),
           offset2, true) ∧
        offset2 = max offset (min index (slot.offset + SQUASHFS_META_ENTRIES - 1)) ∧
        slot2.offset = slot.offset ∧ slot2.skip = slot.skip ∧
        slot2.inodeNumber = slot.inodeNumber ∧ slot2.locked = slot.locked ∧
        slot2.entries = slot.entries + (offset2 - offset) ∧
        (∀ k, k < slot2.entries → slot2.meta_entry k = mkEntry env ino (slot2.offset + k)) := by
  have hsp : skip * SQUASHFS_META_INDEXES = entrySpan env ino := by
    rw [entrySpan, hskip]
  intro fuel
  induction fuel with
  | zero =>
      intro i slot pos data offset hi hoff hpos hdata hent hfuel
      refine ⟨slot, offset, ?_, ?_, rfl, rfl, rfl, rfl, by omega, hent⟩
      · rw [grow_loop, hpos, hdata]
      · simp only [SQUASHFS_META_ENTRIES] at hfuel ⊢
        omega
  | succ fuel ih =>
      intro i slot pos data offset hi hoff hpos hdata hent hfuel
      by_cases hcond : i ≤ index ∧ i < slot.offset + SQUASHFS_META_ENTRIES
      · have hread := read_span_spec env hallOk (skip * SQUASHFS_META_INDEXES)
          (skip * SQUASHFS_META_INDEXES) pos data (le_refl _)
        have hpos2 : pos + skip * SQUASHFS_META_INDEXES =
            ino.blockListStart + (offset + 1) * entrySpan env ino := by
          rw [hpos, hsp]; ring
        have hdata2 : data + blockSum env.meta pos (skip * SQUASHFS_META_INDEXES) =
            ino.startBlock +
              blockSum env.meta ino.blockListStart ((offset + 1) * entrySpan env ino) := by
          rw [hdata, hpos, hsp]
          have h2 : (offset + 1) * entrySpan env ino =
              offset * entrySpan env ino + entrySpan env ino := by ring
          have h3 := blockSum_add env.meta ino.blockListStart (offset * entrySpan env ino)
            (entrySpan env ino)
          rw [h2, h3]
          omega
        set slot1 : MetaIndexSlot :=
          { slot with
              meta_entry := fun k =>
                if k = i - slot.offset then
                  ⟨pos + skip * SQUASHFS_META_INDEXES - env.inodeTableStart,
                   data + blockSum env.meta pos (skip * SQUASHFS_META_INDEXES)⟩
                else slot.meta_entry k,
              entries := slot.entries + 1 } with hslot1
        have hent1 : ∀ k, k < slot1.entries → slot1.meta_entry k = mkEntry env ino (slot1.offset + k) := by
          intro k hk
          simp only [hslot1] at hk ⊢
          by_cases hke : k = i - slot.offset
          · rw [if_pos hke]
            have hkval : k = slot.entries := by omega
            rw [mkEntry]
            have ho : slot.offset + k = offset + 1 := by omega
            rw [ho, hpos2, hdata2]
          · rw [if_neg hke]
            have hk2 : k < slot.entries := by
              rcases Nat.lt_or_ge k slot.entries with h | h
              · exact h
              · exfalso; exact hke (by omega)
            rw [hent k hk2]
        obtain ⟨slot2, offset2, heq, hoff2, ho2, hs2, hin2, hl2, he2, hme2⟩ :=
          ih (i + 1) slot1 (pos + skip * SQUASHFS_META_INDEXES)
            (data + blockSum env.meta pos (skip * SQUASHFS_META_INDEXES)) (offset + 1)
            (by simp only [hslot1]; omega) (by omega)
            (by rw [hpos2]) (by rw [hdata2]) hent1
            (by simp only [hslot1]; omega)
        refine ⟨slot2, offset2, ?_, ?_, ?_, ?_, ?_, ?_, ?_, ?_⟩
        · rw [grow_loop, if_pos hcond, hread]
          exact heq
        · have h1 : slot1.offset = slot.offset := by simp [hslot1]
          rw [hoff2, h1]
          simp only [SQUASHFS_META_ENTRIES] at hcond ⊢
          omega
        · rw [ho2]
        · rw [hs2]
        · rw [hin2]
        · rw [hl2]
        · rw [he2]
          simp only [hslot1]
          have h1 : slot1.offset = slot.offset := by simp [hslot1]
          rw [hoff2, h1]
          simp only [SQUASHFS_META_ENTRIES] at hcond ⊢
          omega
        · exact hme2
      · refine ⟨slot, offset, ?_, ?_, rfl, rfl, rfl, rfl, by omega, hent⟩
        · rw [grow_loop, if_neg hcond, hpos, hdata]
        · simp only [SQUASHFS_META_ENTRIES, not_and, not_lt] at hcond
          simp only [SQUASHFS_META_ENTRIES]
          omega

theorem getTbl_mk (t : Nat → MetaIndexSlot) (n : Nat) :
    getTbl ⟨some t, n⟩ = t := rfl

theorem storeSlot_mk (t : Nat → MetaIndexSlot) (n i : Nat) (s : MetaIndexSlot) :
    storeSlot ⟨some t, n⟩ i s = ⟨some (setSlot t i s), n⟩ := rfl

/-- In a valid state, every non-busy slot of `getTbl` owned by the inode is
valid (covers both the unallocated table, whose pseudo-slots are free, and
the allocated one). -/
theorem ValidState_getTbl (env : MetaEnv) (ino : SqInode) (st : MsblkState)
    (hwf : EnvWf env ino) (hvalid : ValidState env ino st) :
    ∀ j, j < SQUASHFS_META_SLOTS → (getTbl st j).inodeNumber = ino.iIno →
      (getTbl st j).locked = false → SlotValid env ino (getTbl st j) := by
  intro j hj hown hlock
  cases hmi : st.metaIndex with
  | none =>
      exfalso
      have : getTbl st = fun _ => freshSlot := by rw [getTbl, hmi]
      rw [this] at hown
      exact hwf.2 hown.symm
  | some tbl =>
      have hg : getTbl st = tbl := by rw [getTbl, hmi]
      rw [hg] at hown hlock ⊢
      exact hvalid tbl hmi j hj hown hlock

/-- The `while (offset < index)` loop of `fill_meta_index`, under a valid
cache state and with all metadata reads succeeding, always ends on the
`all_done` path with a resume point that is exactly the direct prefix walk
up to some cache index `offset2 ≤ index`, and it preserves cache
validity. -/
theorem fill_loop_spec (env : MetaEnv) (ino : SqInode) (index : Nat)
    (hallOk : AllReadsOk env) (hwf : EnvWf env ino) :
    ∀ fuel offset pos data st,
      index ≤ offset + fuel → offset ≤ index →
      pos = ino.blockListStart + offset * entrySpan env ino →
      data = ino.startBlock + blockSum env.meta ino.blockListStart (offset * entrySpan env ino) →
      ValidState env ino st →
      ∃ offset2 st2,
        fill_loop env ino (calculate_skip (ino.iSize / 2 ^ env.blockLog)) index fuel offset pos
            data st =
          (some (offset2 * SQUASHFS_META_INDEXES * calculate_skip (ino.iSize / 2 ^ env.blockLog),
             ino.blockListStart + offset2 * entrySpan env ino,
             ino.startBlock + blockSum env.meta ino.blockListStart (offset2 * entrySpan env ino)),
           st2) ∧
        offset2 ≤ index ∧ ValidState env ino st2 := by
  intro fuel
  induction fuel with
  | zero =>
      intro offset pos data st hfuel hle hpos hdata hvalid
      subst hpos hdata
      exact ⟨offset, st, by rw [fill_loop], hle, hvalid⟩
  | succ fuel ih =>
      intro offset pos data st hfuel hle hpos hdata hvalid
      subst hpos hdata
      by_cases hlt : offset < index
      swap
      · rw [fill_loop, if_neg hlt]
        exact ⟨offset, st, rfl, hle, hvalid⟩
      rw [fill_loop, if_pos hlt]
      have hsplit : locate_meta_index st ino.iIno (offset + 1) index = (none, st) ∨
          ∃ tbl i, st.metaIndex = some tbl ∧
            locate_meta_index st ino.iIno (offset + 1) index =
              (some i,
                { st with
                    metaIndex := some (setSlot tbl i { tbl i with locked := true }) }) := by
        rcases locate_result st ino.iIno (offset + 1) index with ⟨_, hloc⟩ | ⟨tbl, hm, hcase⟩
        · exact Or.inl hloc
        · rcases hcase with ⟨_, hloc⟩ | ⟨i, _, hres⟩
          · exact Or.inl hloc
          · exact Or.inr ⟨tbl, i, hm, hres⟩
      rcases hsplit with hloc | ⟨tbl, i, hm, hres⟩
      · -- no slot located: allocate an empty one (or give up: all_done)
        rcases empty_spec st ino.iIno (offset + 1)
            (calculate_skip (ino.iSize / 2 ^ env.blockLog)) with
          ⟨p, hp8, hpfree, hemp⟩ | ⟨hms, hemp⟩
        · -- fresh slot p claimed; grow it from the current resume point
          simp only [fill_locate, hloc, hemp, getTbl_mk, setSlot_same, Nat.add_zero]
          obtain ⟨slot2, offset2g, heqg, hoffg, hog, hsg, hing, hlg, heg, hmeg⟩ :=
            grow_spec env ino index (calculate_skip (ino.iSize / 2 ^ env.blockLog)) hallOk rfl
              (SQUASHFS_META_ENTRIES + 1) (offset + 1)
              { inodeNumber := ino.iIno, offset := offset + 1,
                skip := calculate_skip (ino.iSize / 2 ^ env.blockLog), entries := 0,
                locked := true, meta_entry := ((getTbl st) p).meta_entry }
              (ino.blockListStart + offset * entrySpan env ino)
              (ino.startBlock +
                blockSum env.meta ino.blockListStart (offset * entrySpan env ino))
              offset rfl rfl rfl rfl
              (fun k hk => absurd (show k < 0 from hk) (Nat.not_lt_zero k))
              (show offset + 1 + SQUASHFS_META_ENTRIES ≤ offset + 1 + (SQUASHFS_META_ENTRIES + 1)
                from by omega)
          rw [heqg]
          have hoffg3 : offset2g = max offset (min index (offset + 1 + SQUASHFS_META_ENTRIES - 1)) :=
            hoffg
          simp only [SQUASHFS_META_ENTRIES] at hoffg3
          clear hoffg
          have hv2 : ValidState env ino
              (storeSlot
                ⟨some (setSlot (getTbl st) p
                  { inodeNumber := ino.iIno, offset := offset + 1,
                    skip := calculate_skip (ino.iSize / 2 ^ env.blockLog), entries := 0,
                    locked := true, meta_entry := ((getTbl st) p).meta_entry }),
                 (p + 1) % SQUASHFS_META_SLOTS⟩ p { slot2 with locked := false }) := by
            rw [storeSlot_mk, setSlot_setSlot]
            apply ValidState_store
            · intro j hj hne hown hlock
              exact ValidState_getTbl env ino st hwf hvalid j hj hown hlock
            · intro _
              have h1 : slot2.offset = offset + 1 := hog
              have h2 : slot2.entries = 0 + (offset2g - offset) := heg
              refine ⟨show 1 ≤ slot2.offset from by omega,
                show 1 ≤ slot2.entries from by omega, hsg, ?_⟩
              exact fun k hk => hmeg k hk
          obtain ⟨offset3, st3, hres3, hle3, hv3⟩ :=
            ih offset2g
              (ino.blockListStart + offset2g * entrySpan env ino)
              (ino.startBlock +
                blockSum env.meta ino.blockListStart (offset2g * entrySpan env ino))
              (storeSlot
                ⟨some (setSlot (getTbl st) p
                  { inodeNumber := ino.iIno, offset := offset + 1,
                    skip := calculate_skip (ino.iSize / 2 ^ env.blockLog), entries := 0,
                    locked := true, meta_entry := ((getTbl st) p).meta_entry }),
                 (p + 1) % SQUASHFS_META_SLOTS⟩ p { slot2 with locked := false })
              (by omega) (by omega) rfl rfl hv2
          exact ⟨offset3, st3, hres3, hle3, hv3⟩
        · -- allocation failed: all_done with the current resume point
          simp only [fill_locate, hloc, hemp]
          exact ⟨offset, st, rfl, hle, hvalid⟩
      · -- located a slot i: adopt its last entry in range, then grow
        obtain ⟨hi8, hqual, hmax, _⟩ :=
          locate_hit st tbl ino.iIno (offset + 1) index i hm (by rw [hres])
        obtain ⟨hq1, hq2, hq3, hq4⟩ := hqual
        obtain ⟨hso1, hse1, hsk, hsent⟩ := hvalid tbl hm i hi8 hq1 hq4
        have hne0 : ¬ ((tbl i).entries = 0) := by omega
        have hgl : getTbl { st with
            metaIndex := some (setSlot tbl i { tbl i with locked := true }) } i =
            { tbl i with locked := true } := setSlot_same _ _ _
        by_cases cs : index < (tbl i).offset + (tbl i).entries
        · -- the slot already covers the target index: adopt it, no growth
          simp only [fill_locate, hres, hgl, if_neg hne0, if_pos cs]
          have he : (tbl i).meta_entry (index - (tbl i).offset) = mkEntry env ino index := by
            rw [hsent _ (by omega)]
            congr 1
            omega
          have hPC : ((tbl i).meta_entry (index - (tbl i).offset)).indexBlock +
              env.inodeTableStart = ino.blockListStart + index * entrySpan env ino := by
            rw [he, mkEntry]
            exact Nat.sub_add_cancel (le_trans hwf.1 (Nat.le_add_right _ _))
          have hDC : ((tbl i).meta_entry (index - (tbl i).offset)).dataBlock =
              ino.startBlock +
                blockSum env.meta ino.blockListStart (index * entrySpan env ino) := by
            rw [he, mkEntry]
          have hgrow : grow_loop env index (calculate_skip (ino.iSize / 2 ^ env.blockLog))
              (SQUASHFS_META_ENTRIES + 1) ((tbl i).offset + (tbl i).entries)
              { tbl i with locked := true }
              (((tbl i).meta_entry (index - (tbl i).offset)).indexBlock + env.inodeTableStart)
              (((tbl i).meta_entry (index - (tbl i).offset)).dataBlock) index =
              ({ tbl i with locked := true },
               ((tbl i).meta_entry (index - (tbl i).offset)).indexBlock + env.inodeTableStart,
               ((tbl i).meta_entry (index - (tbl i).offset)).dataBlock, index, true) := by
            rw [grow_loop]
            rw [if_neg (show ¬ ((tbl i).offset + (tbl i).entries ≤ index ∧
              (tbl i).offset + (tbl i).entries <
                ({ tbl i with locked := true } : MetaIndexSlot).offset + SQUASHFS_META_ENTRIES)
              from fun hco => absurd hco.1 (by omega))]
          rw [hgrow]
          have hv2 : ValidState env ino
              (storeSlot
                { st with metaIndex := some (setSlot tbl i { tbl i with locked := true }) } i
                { { tbl i with locked := true } with locked := false }) := by
            have hstq : storeSlot
                { st with metaIndex := some (setSlot tbl i { tbl i with locked := true }) } i
                { { tbl i with locked := true } with locked := false } =
                ⟨some (setSlot tbl i { { tbl i with locked := true } with locked := false }),
                 st.nextMetaIndex⟩ := by
              rw [show ({ st with
                  metaIndex := some (setSlot tbl i { tbl i with locked := true }) } :
                    MsblkState) =
                  ⟨some (setSlot tbl i { tbl i with locked := true }), st.nextMetaIndex⟩
                from rfl, storeSlot_mk, setSlot_setSlot]
            rw [hstq]
            apply ValidState_store
            · intro j hj hne hown hlock
              exact hvalid tbl hm j hj hown hlock
            · exact fun _ => ⟨hso1, hse1, hsk, fun k hk => hsent k hk⟩
          rw [hPC, hDC]
          obtain ⟨offset3, st3, hres3, hle3, hv3⟩ :=
            ih index
              (ino.blockListStart + index * entrySpan env ino)
              (ino.startBlock +
                blockSum env.meta ino.blockListStart (index * entrySpan env ino))
              (storeSlot
                { st with metaIndex := some (setSlot tbl i { tbl i with locked := true }) } i
                { { tbl i with locked := true } with locked := false })
              (by omega) (le_refl index) rfl rfl hv2
          exact ⟨offset3, st3, hres3, hle3, hv3⟩
        · -- adopt the slot's last entry, then grow it further
          simp only [fill_locate, hres, hgl, if_neg hne0, if_neg cs]
          have hke : (tbl i).offset + (tbl i).entries - 1 - (tbl i).offset < (tbl i).entries := by
            omega
          have he : (tbl i).meta_entry ((tbl i).offset + (tbl i).entries - 1 - (tbl i).offset) =
              mkEntry env ino ((tbl i).offset + (tbl i).entries - 1) := by
            rw [hsent _ hke]
            congr 1
            omega
          have hPC : ((tbl i).meta_entry ((tbl i).offset + (tbl i).entries - 1 -
              (tbl i).offset)).indexBlock + env.inodeTableStart =
              ino.blockListStart +
                ((tbl i).offset + (tbl i).entries - 1) * entrySpan env ino := by
            rw [he, mkEntry]
            exact Nat.sub_add_cancel (le_trans hwf.1 (Nat.le_add_right _ _))
          have hDC : ((tbl i).meta_entry ((tbl i).offset + (tbl i).entries - 1 -
              (tbl i).offset)).dataBlock =
              ino.startBlock + blockSum env.meta ino.blockListStart
                (((tbl i).offset + (tbl i).entries - 1) * entrySpan env ino) := by
            rw [he, mkEntry]
          obtain ⟨slot2, offset2g, heqg, hoffg, hog, hsg, hing, hlg, heg, hmeg⟩ :=
            grow_spec env ino index (calculate_skip (ino.iSize / 2 ^ env.blockLog)) hallOk rfl
              (SQUASHFS_META_ENTRIES + 1) ((tbl i).offset + (tbl i).entries)
              { tbl i with locked := true }
              (((tbl i).meta_entry ((tbl i).offset + (tbl i).entries - 1 -
                (tbl i).offset)).indexBlock + env.inodeTableStart)
              (((tbl i).meta_entry ((tbl i).offset + (tbl i).entries - 1 -
                (tbl i).offset)).dataBlock)
              ((tbl i).offset + (tbl i).entries - 1)
              rfl
              (show (tbl i).offset + (tbl i).entries =
                (tbl i).offset + (tbl i).entries - 1 + 1 from by omega)
              hPC hDC
              (fun k hk => hsent k hk)
              (show (tbl i).offset + SQUASHFS_META_ENTRIES ≤
                (tbl i).offset + (tbl i).entries + (SQUASHFS_META_ENTRIES + 1) from by omega)
          rw [heqg]
          have hoffg3 : offset2g = max ((tbl i).offset + (tbl i).entries - 1)
              (min index ((tbl i).offset + SQUASHFS_META_ENTRIES - 1)) := hoffg
          simp only [SQUASHFS_META_ENTRIES] at hoffg3
          clear hoffg
          have hv2 : ValidState env ino
              (storeSlot
                { st with metaIndex := some (setSlot tbl i { tbl i with locked := true }) } i
                { slot2 with locked := false }) := by
            have hstq : storeSlot
                { st with metaIndex := some (setSlot tbl i { tbl i with locked := true }) } i
                { slot2 with locked := false } =
                ⟨some (setSlot tbl i { slot2 with locked := false }), st.nextMetaIndex⟩ := by
              rw [show ({ st with
                  metaIndex := some (setSlot tbl i { tbl i with locked := true }) } :
                    MsblkState) =
                  ⟨some (setSlot tbl i { tbl i with locked := true }), st.nextMetaIndex⟩
                from rfl, storeSlot_mk, setSlot_setSlot]
            rw [hstq]
            apply ValidState_store
            · intro j hj hne hown hlock
              exact hvalid tbl hm j hj hown hlock
            · intro _
              have h1 : slot2.offset = (tbl i).offset := hog
              have h2 : slot2.entries = (tbl i).entries + (offset2g -
                ((tbl i).offset + (tbl i).entries - 1)) := heg
              have h3 : slot2.skip = (tbl i).skip := hsg
              refine ⟨show 1 ≤ slot2.offset from by omega,
                show 1 ≤ slot2.entries from by omega,
                show slot2.skip = _ from by rw [h3]; exact hsk, ?_⟩
              exact fun k hk => hmeg k hk
          obtain ⟨offset3, st3, hres3, hle3, hv3⟩ :=
            ih offset2g
              (ino.blockListStart + offset2g * entrySpan env ino)
              (ino.startBlock +
                blockSum env.meta ino.blockListStart (offset2g * entrySpan env ino))
              (storeSlot
                { st with metaIndex := some (setSlot tbl i { tbl i with locked := true }) } i
                { slot2 with locked := false })
              (by omega) (by omega) rfl rfl hv2
          exact ⟨offset3, st3, hres3, hle3, hv3⟩

theorem calculate_skip_pos (blocks : Nat) : 1 ≤ calculate_skip blocks := by
  simp only [calculate_skip, SQUASHFS_CACHED_BLKS, SQUASHFS_META_ENTRIES,
    SQUASHFS_META_INDEXES]
  omega

/-- Full characterization of `read_blocklist` under a valid cache state
with no metadata read errors: it returns exactly the direct prefix-sum
resolution of the target index, and leaves the cache valid. -/
theorem read_blocklist_spec (env : MetaEnv) (ino : SqInode) (st : MsblkState) (index : Nat)
    (hwf : EnvWf env ino) (hvalid : ValidState env ino st) (hallOk : AllReadsOk env) :
    (read_blocklist env ino st index).1 =
      some (ino.startBlock + blockSum env.meta ino.blockListStart index,
        env.meta (ino.blockListStart + index)) ∧
    ValidState env ino (read_blocklist env ino st index).2 := by
  obtain ⟨offset2, st2, hres, hle2, hv2⟩ :=
    fill_loop_spec env ino
      (index / (SQUASHFS_META_INDEXES * calculate_skip (ino.iSize / 2 ^ env.blockLog)))
      hallOk hwf
      (index / (SQUASHFS_META_INDEXES * calculate_skip (ino.iSize / 2 ^ env.blockLog)))
      0 ino.blockListStart ino.startBlock st (by omega) (Nat.zero_le _)
      (by simp) (by simp [blockSum]) hvalid
  have hfm : fill_meta_index env ino st index =
      (some (offset2 * SQUASHFS_META_INDEXES * calculate_skip (ino.iSize / 2 ^ env.blockLog),
         ino.blockListStart + offset2 * entrySpan env ino,
         ino.startBlock + blockSum env.meta ino.blockListStart (offset2 * entrySpan env ino)),
       st2) := hres
  have hsp : offset2 * SQUASHFS_META_INDEXES * calculate_skip (ino.iSize / 2 ^ env.blockLog) =
      offset2 * entrySpan env ino := by
    rw [entrySpan]; ring
  have hres_le : offset2 * entrySpan env ino ≤ index := by
    rw [← hsp, Nat.mul_assoc]
    have hskip1 : 1 ≤ calculate_skip (ino.iSize / 2 ^ env.blockLog) := calculate_skip_pos _
    have hd : 0 < SQUASHFS_META_INDEXES * calculate_skip (ino.iSize / 2 ^ env.blockLog) := by
      simp only [SQUASHFS_META_INDEXES]
      omega
    exact (Nat.le_div_iff_mul_le hd).mp hle2
  simp only [read_blocklist, hfm]
  rw [read_blocklist_tail_eq, hsp]
  rw [tail_ok_of_allOk env hallOk index _ _ (Nat.sub_le _ _), hallOk]
  simp only [Bool.and_self, if_true]
  refine ⟨congrArg some (Prod.ext ?_ ?_), hv2⟩
  · show ino.startBlock + blockSum env.meta ino.blockListStart (offset2 * entrySpan env ino) +
      blockSum env.meta (ino.blockListStart + offset2 * entrySpan env ino)
        (index - offset2 * entrySpan env ino) =
      ino.startBlock + blockSum env.meta ino.blockListStart index
    rw [Nat.add_assoc, ← blockSum_add]
    have hx : offset2 * entrySpan env ino + (index - offset2 * entrySpan env ino) = index := by
      omega
    rw [hx]
  · show env.meta (ino.blockListStart + offset2 * entrySpan env ino +
      (index - offset2 * entrySpan env ino)) = env.meta (ino.blockListStart + index)
    have hx : ino.blockListStart + offset2 * entrySpan env ino +
        (index - offset2 * entrySpan env ino) = ino.blockListStart + index := by omega
    rw [hx]

/-- C1: under any valid cache state (arbitrary slot contents, busy flags,
round-robin cursor — including states left by other in-flight resolutions)
and with no metadata read errors, `read_blocklist` returns exactly what the
direct uncached walk of the block list from the inode's block-list start
returns: the prefix sum of compressed sizes up to the index and the raw
size field at the index.  The cache state is irrelevant to the result and
remains valid, so repeated resolutions of the same index always yield the
same location and size. -/
theorem claim_C1 (env : MetaEnv) (ino : SqInode) (st : MsblkState) (index : Nat)
    (hwf : EnvWf env ino) (hvalid : ValidState env ino st) (hallOk : AllReadsOk env) :
    (read_blocklist env ino st index).1 = read_blocklist_uncached env ino index ∧
    (read_blocklist env ino st index).1 =
      some (ino.startBlock + blockSum env.meta ino.blockListStart index,
        env.meta (ino.blockListStart + index)) ∧
    ValidState env ino (read_blocklist env ino st index).2 := by
  obtain ⟨h1, h2⟩ := read_blocklist_spec env ino st index hwf hvalid hallOk
  refine ⟨?_, h1, h2⟩
  rw [h1, read_blocklist_uncached, read_blocklist_tail_eq]
  rw [tail_ok_of_allOk env hallOk index _ _ (Nat.sub_le _ _), hallOk]
  simp only [Bool.and_self, if_true, Nat.sub_zero]

theorem claim_C1_witness :
    (read_blocklist env0 ino0 st0 0).1 = read_blocklist_uncached env0 ino0 0 ∧
    (read_blocklist env0 ino0 st0 0).1 =
      some (ino0.startBlock + blockSum env0.meta ino0.blockListStart 0,
        env0.meta (ino0.blockListStart + 0)) ∧
    ValidState env0 ino0 (read_blocklist env0 ino0 st0 0).2 :=
  claim_C1 env0 ino0 st0 0 ⟨Nat.le_refl 0, by decide⟩
    (fun _ h => Option.noConfusion h) (fun _ _ => rfl)

/-- C7: under valid cache states (possibly different ones for the two
resolutions, reflecting any interleaving of other cache activity) and with
no metadata read errors, the cumulative data position `read_blocklist`
returns for a larger index is never smaller than the one returned for a
smaller index. -/
theorem claim_C7 (env : MetaEnv) (ino : SqInode) (st1 st2 : MsblkState)
    (i j bi si bj sj : Nat) (hij : i < j) (hwf : EnvWf env ino)
    (hv1 : ValidState env ino st1) (hv2 : ValidState env ino st2)
    (hallOk : AllReadsOk env)
    (h1 : (read_blocklist env ino st1 i).1 = some (bi, si))
    (h2 : (read_blocklist env ino st2 j).1 = some (bj, sj)) :
    bi ≤ bj := by
  obtain ⟨hs1, _⟩ := read_blocklist_spec env ino st1 i hwf hv1 hallOk
  obtain ⟨hs2, _⟩ := read_blocklist_spec env ino st2 j hwf hv2 hallOk
  rw [h1] at hs1
  rw [h2] at hs2
  injection hs1 with hs1
  injection hs2 with hs2
  injection hs1 with hbi hsi
  injection hs2 with hbj hsj
  rw [hbi, hbj]
  exact Nat.add_le_add_left (blockSum_mono env.meta ino.blockListStart (le_of_lt hij)) _

theorem claim_C7_witness : (13 : Nat) ≤ 16 :=
  claim_C7 env0 ino0 st0 st0 1 2 13 3 16 3 (by decide) ⟨Nat.le_refl 0, by decide⟩
    (fun _ h => Option.noConfusion h) (fun _ h => Option.noConfusion h) (fun _ _ => rfl)
    (by decide) (by decide)

/-- C6 (amended): every grow step of `fill_meta_index` preserves the slot
invariant that the populated entries are contiguous — existing entries are
untouched, new ones are appended at consecutive positions (entry `k`
covering cache index `start + k`) — and are strictly increasing in stored
block-list cursor (hence in logical index) and NON-decreasing in
cumulative data position.  (The original claim's strict increase of the
data position fails for sparse spans; see the counterexample.)  The
hypotheses state that the grow loop is entered at the slot's append
position with a resume point at or beyond the slot's last entry, as
`fill_meta_index` always does. -/
theorem claim_C6 (env : MetaEnv) (index skip : Nat) (hskip : 1 ≤ skip) :
    ∀ fuel i slot pos data offset,
      i = slot.offset + slot.entries →
      env.inodeTableStart ≤ pos →
      (slot.entries = 0 ∨
        ((slot.meta_entry (slot.entries - 1)).dataBlock ≤ data ∧
         (slot.meta_entry (slot.entries - 1)).indexBlock + env.inodeTableStart ≤ pos)) →
      (∀ k, k + 1 < slot.entries →
        (slot.meta_entry k).dataBlock ≤ (slot.meta_entry (k + 1)).dataBlock ∧
        (slot.meta_entry k).indexBlock < (slot.meta_entry (k + 1)).indexBlock) →
      (grow_loop env index skip fuel i slot pos data offset).1.offset = slot.offset ∧
      slot.entries ≤ (grow_loop env index skip fuel i slot pos data offset).1.entries ∧
      (∀ k, k < slot.entries →
        (grow_loop env index skip fuel i slot pos data offset).1.meta_entry k =
          slot.meta_entry k) ∧
      (∀ k, k + 1 < (grow_loop env index skip fuel i slot pos data offset).1.entries →
        ((grow_loop env index skip fuel i slot pos data offset).1.meta_entry k).dataBlock ≤
          ((grow_loop env index skip fuel i slot pos data offset).1.meta_entry
            (k + 1)).dataBlock ∧
        ((grow_loop env index skip fuel i slot pos data offset).1.meta_entry k).indexBlock <
          ((grow_loop env index skip fuel i slot pos data offset).1.meta_entry
            (k + 1)).indexBlock) := by
  intro fuel
  induction fuel with
  | zero =>
      intro i slot pos data offset hi hits hlink hsorted
      exact ⟨rfl, Nat.le_refl _, fun k _ => rfl, hsorted⟩
  | succ fuel ih =>
      intro i slot pos data offset hi hits hlink hsorted
      rw [grow_loop]
      by_cases hcond : i ≤ index ∧ i < slot.offset + SQUASHFS_META_ENTRIES
      swap
      · rw [if_neg hcond]
        exact ⟨rfl, Nat.le_refl _, fun k _ => rfl, hsorted⟩
      rw [if_pos hcond]
      cases hrs : read_span env (skip * SQUASHFS_META_INDEXES) (skip * SQUASHFS_META_INDEXES)
          pos data with
      | none =>
          exact ⟨rfl, Nat.le_refl _, fun k _ => rfl, hsorted⟩
      | some pd =>
          obtain ⟨pos2, data2⟩ := pd
          obtain ⟨hp2, hd2⟩ := read_span_some env _ _ _ _ _ _ hrs
          have hspan1 : 1 ≤ skip * SQUASHFS_META_INDEXES := by
            simp only [SQUASHFS_META_INDEXES]
            omega
          set slot1 : MetaIndexSlot :=
            { slot with
                meta_entry := fun k =>
                  if k = i - slot.offset then ⟨pos2 - env.inodeTableStart, data2⟩
                  else slot.meta_entry k,
                entries := slot.entries + 1 } with hslot1
          have hidx : i - slot.offset = slot.entries := by omega
          have hme_new : slot1.meta_entry slot.entries = ⟨pos2 - env.inodeTableStart, data2⟩ := by
            simp only [hslot1]
            rw [if_pos hidx.symm]
          have hme_old : ∀ k, k < slot.entries → slot1.meta_entry k = slot.meta_entry k := by
            intro k hk
            simp only [hslot1]
            rw [if_neg (by omega)]
          have hent1 : slot1.entries = slot.entries + 1 := rfl
          have hoff1 : slot1.offset = slot.offset := rfl
          have hits2 : env.inodeTableStart ≤ pos2 := by omega
          have hlink1 : slot1.entries = 0 ∨
              ((slot1.meta_entry (slot1.entries - 1)).dataBlock ≤ data2 ∧
               (slot1.meta_entry (slot1.entries - 1)).indexBlock + env.inodeTableStart ≤ pos2) := by
            right
            rw [hent1, Nat.add_sub_cancel, hme_new]
            exact ⟨Nat.le_refl _,
              show pos2 - env.inodeTableStart + env.inodeTableStart ≤ pos2 from by omega⟩
          have hsorted1 : ∀ k, k + 1 < slot1.entries →
              (slot1.meta_entry k).dataBlock ≤ (slot1.meta_entry (k + 1)).dataBlock ∧
              (slot1.meta_entry k).indexBlock < (slot1.meta_entry (k + 1)).indexBlock := by
            intro k hk
            rw [hent1] at hk
            by_cases hklast : k + 1 = slot.entries
            · rcases hlink with h0 | ⟨hld, hli⟩
              · omega
              · have hk1 : slot.entries - 1 = k := by omega
                rw [hk1] at hld hli
                rw [hme_old k (by omega), hklast, hme_new]
                constructor
                · exact le_trans hld hd2
                · show (slot.meta_entry k).indexBlock < pos2 - env.inodeTableStart
                  omega
            · rw [hme_old k (by omega), hme_old (k + 1) (by omega)]
              exact hsorted k (by omega)
          obtain ⟨rh1, rh2, rh3, rh4⟩ := ih (i + 1) slot1 pos2 data2 (offset + 1)
            (by rw [hent1, hoff1]; omega) hits2 hlink1 hsorted1
          refine ⟨by rw [rh1, hoff1], le_trans (Nat.le_succ slot.entries)
            (show slot.entries + 1 ≤ _ from rh2), ?_, rh4⟩
          intro k hk
          rw [rh3 k (by rw [hent1]; omega), hme_old k hk]

set_option maxRecDepth 100000 in
theorem claim_C6_counterexample :
    (getTbl (fill_meta_index envZ inoZ st0 4096).2 0).inodeNumber = inoZ.iIno ∧
    (getTbl (fill_meta_index envZ inoZ st0 4096).2 0).entries = 2 ∧
    ((getTbl (fill_meta_index envZ inoZ st0 4096).2 0).meta_entry 0).indexBlock <
      ((getTbl (fill_meta_index envZ inoZ st0 4096).2 0).meta_entry 1).indexBlock ∧
    ¬ ((getTbl (fill_meta_index envZ inoZ st0 4096).2 0).meta_entry 0).dataBlock <
      ((getTbl (fill_meta_index envZ inoZ st0 4096).2 0).meta_entry 1).dataBlock := by
  decide

theorem claim_C6_witness :
    (grow_loop envZ 2 1 1 0 freshSlot 0 0 0).1.offset = freshSlot.offset ∧
    freshSlot.entries ≤ (grow_loop envZ 2 1 1 0 freshSlot 0 0 0).1.entries ∧
    (∀ k, k < freshSlot.entries →
      (grow_loop envZ 2 1 1 0 freshSlot 0 0 0).1.meta_entry k = freshSlot.meta_entry k) ∧
    (∀ k, k + 1 < (grow_loop envZ 2 1 1 0 freshSlot 0 0 0).1.entries →
      ((grow_loop envZ 2 1 1 0 freshSlot 0 0 0).1.meta_entry k).dataBlock ≤
        ((grow_loop envZ 2 1 1 0 freshSlot 0 0 0).1.meta_entry (k + 1)).dataBlock ∧
      ((grow_loop envZ 2 1 1 0 freshSlot 0 0 0).1.meta_entry k).indexBlock <
        ((grow_loop envZ 2 1 1 0 freshSlot 0 0 0).1.meta_entry (k + 1)).indexBlock) :=
  claim_C6 envZ 2 1 (by decide) 1 0 freshSlot 0 0 0 rfl (by decide)
    (Or.inl rfl) (fun k hk => absurd hk (Nat.not_lt_zero (k + 1)))

/-- Iterations of the page-push loop beyond the faulted page leave the
faulted page's accumulated state untouched. -/
theorem fill_pages_past (page : PageIn) (end_index : Nat) (sparse : Bool) (data : Nat → Nat) :
    ∀ fuel i bytes dp cur, page.index < i →
      fill_pages page end_index sparse data fuel i bytes dp cur = cur := by
  intro fuel
  induction fuel with
  | zero => intro i bytes dp cur _; rfl
  | succ fuel ih =>
      intro i bytes dp cur hgt
      simp only [fill_pages]
      by_cases hc : i ≤ end_index ∧ 0 < bytes
      · rw [if_pos hc, if_neg (show ¬ (i = page.index) from by omega)]
        exact ih (i + 1) _ _ _ (by omega)
      · rw [if_neg hc]

/-- If the faulted page lies in the span and the byte countdown is still
positive when the loop reaches it, the page-push loop writes the faulted
page: `avail` bytes copied from the running data offset, the rest zeroed,
marked up to date and unlocked, error flag untouched. -/
theorem fill_pages_reach (page : PageIn) (end_index : Nat) (sparse : Bool) (data : Nat → Nat)
    (hupd : page.uptodate = false) :
    ∀ fuel i bytes dp cur,
      i ≤ page.index → page.index ≤ end_index → page.index - i < fuel →
      (PAGE_CACHE_SIZE : Int) * ((page.index - i : Nat) : Int) < bytes →
      fill_pages page end_index sparse data fuel i bytes dp cur =
        { contents := fun j => if j < (if sparse then 0 else
              min (bytes - (PAGE_CACHE_SIZE : Int) *
                ((page.index - i : Nat) : Int)).toNat PAGE_CACHE_SIZE) then
            data (dp + PAGE_CACHE_SIZE * (page.index - i) + j) else 0,
          uptodate := true, error := cur.error, locked := false } := by
  intro fuel
  induction fuel with
  | zero => intro i bytes dp cur _ _ h3 _; omega
  | succ fuel ih =>
      intro i bytes dp cur h1 h2 h3 h4
      have hnn : (0 : Int) ≤ (PAGE_CACHE_SIZE : Int) * ((page.index - i : Nat) : Int) :=
        mul_nonneg (Int.natCast_nonneg _) (Int.natCast_nonneg _)
      have hc : i ≤ end_index ∧ 0 < bytes := ⟨by omega, lt_of_le_of_lt hnn h4⟩
      simp only [fill_pages]
      rw [if_pos hc]
      by_cases heq : i = page.index
      · subst heq
        rw [if_pos rfl, hupd]
        rw [if_neg Bool.false_ne_true]
        rw [fill_pages_past page end_index sparse data fuel (page.index + 1) _ _ _ (by omega)]
        simp [Nat.sub_self]
      · rw [if_neg heq]
        have h5 : (bytes - (PAGE_CACHE_SIZE : Int)) -
            (PAGE_CACHE_SIZE : Int) * ((page.index - (i + 1) : Nat) : Int) =
            bytes - (PAGE_CACHE_SIZE : Int) * ((page.index - i : Nat) : Int) := by
          simp only [PAGE_CACHE_SIZE] at h4 ⊢
          have hsub : page.index - i = (page.index - (i + 1)) + 1 := by omega
          rw [hsub]
          push_cast
          ring
        have h6 : dp + PAGE_CACHE_SIZE + PAGE_CACHE_SIZE * (page.index - (i + 1)) =
            dp + PAGE_CACHE_SIZE * (page.index - i) := by
          simp only [PAGE_CACHE_SIZE]
          omega
        rw [ih (i + 1) (bytes - (PAGE_CACHE_SIZE : Int)) (dp + PAGE_CACHE_SIZE) cur
          (by omega) h2 (by omega)
          (by
            simp only [PAGE_CACHE_SIZE] at h4 ⊢
            have hsub : page.index - i = (page.index - (i + 1)) + 1 := by omega
            rw [hsub] at h4
            push_cast at h4 ⊢
            omega)]
        simp only [h5, h6]

/-- C10: a readpage request at or beyond the page span of the file
performs no block-list resolution and no data read — the result does not
depend on any of the resolution or read oracles — and simply zero-fills
the faulted page, marks it up to date without setting the error flag,
unlocks it, and returns 0. -/
theorem claim_C10 (env : RPEnv) (page : PageIn)
    (hguard : (env.iSize + PAGE_CACHE_SIZE - 1) >>> PAGE_CACHE_SHIFT ≤ page.index)
    (herr : page.error = false) :
    squashfs_readpage env page =
      ({ contents := fun _ => 0, uptodate := true, error := false, locked := false }, 0) ∧
    ∀ rbl2 rd2 rp2 fe2 fb2 fo2,
      squashfs_readpage
        ⟨env.blockLog, env.iSize, env.hasFragment, rbl2, rd2, rp2, fe2, fb2, fo2⟩ page =
      squashfs_readpage env page := by
  have h1 : squashfs_readpage env page = (out_page page false, 0) := by
    simp only [squashfs_readpage]
    rw [if_pos hguard]
  constructor
  · rw [h1]
    simp [out_page, herr]
  · intro rbl2 rd2 rp2 fe2 fb2 fo2
    have h2 : squashfs_readpage
        ⟨env.blockLog, env.iSize, env.hasFragment, rbl2, rd2, rp2, fe2, fb2, fo2⟩ page =
        (out_page page false, 0) := by
      simp only [squashfs_readpage]
      rw [if_pos hguard]
    rw [h1, h2]

theorem claim_C10_witness :
    squashfs_readpage envH pageX =
      ({ contents := fun _ => 0, uptodate := true, error := false, locked := false }, 0) :=
  (claim_C10 envH pageX (by decide) rfl).1

/-- C2: a page fault on a datablock whose resolved compressed size is 0 (a
sparse hole) fills the faulted page entirely with zero bytes, marks it up
to date, leaves the error flag clear, and unlocks it. -/
theorem claim_C2 (env : RPEnv) (page : PageIn)
    (hbl : PAGE_CACHE_SHIFT ≤ env.blockLog)
    (hguard : ¬ ((env.iSize + PAGE_CACHE_SIZE - 1) >>> PAGE_CACHE_SHIFT ≤ page.index))
    (hbranch : page.index >>> (env.blockLog - PAGE_CACHE_SHIFT) < env.iSize >>> env.blockLog ∨
      env.hasFragment = false)
    (hb : ¬ ((env.rbl (page.index >>> (env.blockLog - PAGE_CACHE_SHIFT))).1 = 0))
    (hhole : (env.rbl (page.index >>> (env.blockLog - PAGE_CACHE_SHIFT))).2 = 0)
    (hupd : page.uptodate = false) (herr : page.error = false) :
    squashfs_readpage env page =
      ({ contents := fun _ => 0, uptodate := true, error := false, locked := false }, 0) := by
  simp only [squashfs_readpage]
  rw [if_neg hguard, if_pos hbranch, if_neg hb, if_pos hhole]
  set s := env.blockLog - PAGE_CACHE_SHIFT with hs
  have hps : (0 : Nat) < 2 ^ s := pow_pos (by norm_num) s
  have hbl2 : env.blockLog = s + 12 := by
    rw [hs]
    simp only [PAGE_CACHE_SHIFT] at hbl ⊢
    omega
  have hB : 2 ^ env.blockLog = 2 ^ s * 4096 := by
    rw [hbl2, pow_add]
    norm_num
  have hstart : (page.index >>> s) <<< s = page.index / 2 ^ s * 2 ^ s := by
    rw [Nat.shiftLeft_eq, Nat.shiftRight_eq_div_pow]
  have hsplit := Nat.div_add_mod' page.index (2 ^ s)
  have hr : page.index % 2 ^ s < 2 ^ s := Nat.mod_lt _ hps
  have hA : (page.index >>> s) <<< s ≤ page.index := by
    rw [hstart]
    exact Nat.div_mul_le_self _ _
  have hBnd : page.index ≤ (page.index >>> s) <<< s + ((1 <<< s) - 1) := by
    rw [hstart, Nat.shiftLeft_eq, one_mul]
    omega
  have hsub : page.index - (page.index >>> s) <<< s = page.index % 2 ^ s := by
    rw [hstart]
    omega
  have hg : page.index * 4096 < env.iSize := by
    rw [Nat.shiftRight_eq_div_pow] at hguard
    simp only [PAGE_CACHE_SIZE, PAGE_CACHE_SHIFT] at hguard
    norm_num at hguard
    have h1 : page.index + 1 ≤ (env.iSize + 4096 - 1) / 4096 := by omega
    have h2 := (Nat.le_div_iff_mul_le (by norm_num : (0:Nat) < 4096)).mp h1
    omega
  have hD : PAGE_CACHE_SIZE * (page.index - (page.index >>> s) <<< s) <
      (if page.index >>> s = env.iSize >>> env.blockLog then env.iSize % 2 ^ env.blockLog
       else 2 ^ env.blockLog) := by
    rw [hsub]
    simp only [PAGE_CACHE_SIZE]
    by_cases hqf : page.index >>> s = env.iSize >>> env.blockLog
    · rw [if_pos hqf]
      rw [Nat.shiftRight_eq_div_pow, Nat.shiftRight_eq_div_pow] at hqf
      have hq2 := Nat.div_add_mod' env.iSize (2 ^ env.blockLog)
      have key : page.index * 4096 =
          env.iSize / 2 ^ env.blockLog * 2 ^ env.blockLog + page.index % 2 ^ s * 4096 := by
        calc page.index * 4096
            = (page.index / 2 ^ s * 2 ^ s + page.index % 2 ^ s) * 4096 := by
              rw [hsplit]
          _ = page.index / 2 ^ s * (2 ^ s * 4096) + page.index % 2 ^ s * 4096 := by ring
          _ = env.iSize / 2 ^ env.blockLog * (2 ^ s * 4096) +
              page.index % 2 ^ s * 4096 := by rw [hqf]
          _ = env.iSize / 2 ^ env.blockLog * 2 ^ env.blockLog +
              page.index % 2 ^ s * 4096 := by rw [hB]
      omega
    · rw [if_neg hqf, hB]
      have h9 : page.index % 2 ^ s * 4096 < 2 ^ s * 4096 :=
        (Nat.mul_lt_mul_right (by norm_num)).mpr hr
      omega
  rw [fill_pages_reach page ((page.index >>> s) <<< s + ((1 <<< s) - 1)) true
    env.readPageBytes hupd
    ((page.index >>> s) <<< s + ((1 <<< s) - 1) + 1 - (page.index >>> s) <<< s)
    ((page.index >>> s) <<< s) _ 0 ⟨page.contents, page.uptodate, page.error, true⟩
    hA hBnd (by omega)
    (by
      have := hD
      simp only [PAGE_CACHE_SIZE] at this ⊢
      push_cast
      exact_mod_cast this)]
  simp [herr]

theorem claim_C2_witness :
    squashfs_readpage envH pageH =
      ({ contents := fun _ => 0, uptodate := true, error := false, locked := false }, 0) :=
  claim_C2 envH pageH (by decide) (by decide) (Or.inr rfl) (by decide) rfl rfl rfl

/-- C3 (amended): on every failure during a page fault — block-list
resolution failure, data-block read failure, or fragment fetch error —
`squashfs_readpage` marks the faulted page as failed, zero-fills it and
unlocks it, but does NOT mark it up to date: the up-to-date flag is left
unchanged, so a freshly faulted (not yet up-to-date) page remains
non-resident.  (The original claim's "marks it resident" fails; see the
counterexample.) -/
theorem claim_C3 (env : RPEnv) (page : PageIn)
    (hguard : ¬ ((env.iSize + PAGE_CACHE_SIZE - 1) >>> PAGE_CACHE_SHIFT ≤ page.index))
    (hfail :
      ((page.index >>> (env.blockLog - PAGE_CACHE_SHIFT) < env.iSize >>> env.blockLog ∨
          env.hasFragment = false) ∧
        ((env.rbl (page.index >>> (env.blockLog - PAGE_CACHE_SHIFT))).1 = 0 ∨
          (¬ ((env.rbl (page.index >>> (env.blockLog - PAGE_CACHE_SHIFT))).2 = 0) ∧
            env.readData (env.rbl (page.index >>> (env.blockLog - PAGE_CACHE_SHIFT))).1
              (env.rbl (page.index >>> (env.blockLog - PAGE_CACHE_SHIFT))).2 = 0))) ∨
      (¬ (page.index >>> (env.blockLog - PAGE_CACHE_SHIFT) < env.iSize >>> env.blockLog ∨
          env.hasFragment = false) ∧ env.fragError = true)) :
    squashfs_readpage env page =
      ({ contents := fun _ => 0, uptodate := page.uptodate, error := true,
         locked := false }, 0) := by
  simp only [squashfs_readpage]
  rw [if_neg hguard]
  rcases hfail with ⟨hbranch, hf⟩ | ⟨hbranch, hfrag⟩
  · rw [if_pos hbranch]
    rcases hf with hb0 | ⟨hbs, hzero⟩
    · rw [if_pos hb0]
      simp [out_page]
    · by_cases hb0 : (env.rbl (page.index >>> (env.blockLog - PAGE_CACHE_SHIFT))).1 = 0
      · rw [if_pos hb0]
        simp [out_page]
      · rw [if_neg hb0, if_neg hbs, if_pos hzero]
        simp [out_page]
  · rw [if_neg hbranch, if_pos hfrag]
    simp [out_page]

theorem claim_C3_counterexample :
    (squashfs_readpage envE pageE).1.error = true ∧
    (squashfs_readpage envE pageE).1.uptodate = false := by
  decide

theorem claim_C3_witness :
    squashfs_readpage envE pageE =
      ({ contents := fun _ => 0, uptodate := pageE.uptodate, error := true,
         locked := false }, 0) :=
  claim_C3 envE pageE (by decide) (Or.inl ⟨Or.inl (by decide), Or.inl rfl⟩)

/-- C5: `calculate_skip` always returns a skip ≥ 1, bounded above by the
cap `SQUASHFS_CACHED_BLKS - 1` (hence also by the per-slot capacity
`SQUASHFS_META_ENTRIES`), and is non-decreasing in the block count; this
holds for every block count, in particular for all sizes up to the maximum
supported. -/
theorem claim_C5 (blocks : Nat) :
    1 ≤ calculate_skip blocks ∧
    calculate_skip blocks ≤ SQUASHFS_CACHED_BLKS - 1 ∧
    calculate_skip blocks ≤ SQUASHFS_META_ENTRIES ∧
    ∀ b2, blocks ≤ b2 → calculate_skip blocks ≤ calculate_skip b2 := by
  refine ⟨?_, ?_, ?_, ?_⟩
  · simp only [calculate_skip, SQUASHFS_CACHED_BLKS, SQUASHFS_META_ENTRIES,
      SQUASHFS_META_INDEXES]
    omega
  · simp only [calculate_skip, SQUASHFS_CACHED_BLKS]
    omega
  · simp only [calculate_skip, SQUASHFS_CACHED_BLKS, SQUASHFS_META_ENTRIES]
    omega
  · intro b2 h
    simp only [calculate_skip, SQUASHFS_CACHED_BLKS, SQUASHFS_META_ENTRIES,
      SQUASHFS_META_INDEXES]
    have : (blocks - 1) / 262144 ≤ (b2 - 1) / 262144 :=
      Nat.div_le_div_right (by omega)
    omega

theorem claim_C5_witness :
    1 ≤ calculate_skip 300000 ∧
    calculate_skip 300000 ≤ SQUASHFS_CACHED_BLKS - 1 ∧
    calculate_skip 300000 ≤ SQUASHFS_META_ENTRIES ∧
    calculate_skip 300000 ≤ calculate_skip 14680064 :=
  ⟨(claim_C5 300000).1, (claim_C5 300000).2.1, (claim_C5 300000).2.2.1,
    (claim_C5 300000).2.2.2 14680064 (by decide)⟩
